import Mathlib

/-!
# zzuf `lib-stream.c`: diverted stream functions

A shallow embedding of the stream wrappers of `src/lib-stream.c`
(`fopen`, `freopen`, `fseek`/`fseeko`, `rewind`, `fread`, `getc`/`fgetc`,
`fgets`, `ungetc`, `getline`/`getdelim`/`__getdelim`) as state-passing
functions over a `World`, followed by theorems about them.

* The host C library (the `*_orig` functions, `ftell`, `fileno`,
  `realloc`) is modelled by a byte stream with a cursor and a pushback
  stack.
* The collaborators of the wrappers that live in other files of zzuf
  (`_zz_lock`, `_zz_register`, `_zz_fuzz`, `_zz_setpos`, ...) are modelled
  from the specification; every call to one of them is recorded in the
  event log of the world, in call order.
* Preprocessor switches are a `Config` value.
* `LOADSYM` (symbol resolution) and `debug` (diagnostics) do not change the
  state and are left out; loops without a bound in the source take a fuel
  argument.
* The wrapper `__srefill` and a BSD host `fgetc` that reaches it are modelled
  in a section of their own, over a world that also holds the read buffer of
  the stream.
-/

namespace Zzuf

/-! ## Host C library -/

/-- The C constant `EOF`. -/
abbrev EOF : Int := -1
/-- The C constant `SEEK_SET`. -/
abbrev SEEK_SET : Int := 0
/-- The C constant `SEEK_CUR`. -/
abbrev SEEK_CUR : Int := 1
/-- The C constant `SEEK_END`. -/
abbrev SEEK_END : Int := 2

/-- Conversion of a 64-bit pattern to `long` / `ssize_t`. -/
def toLong (x : Int) : Int := (x + 2 ^ 63) % 2 ^ 64 - 2 ^ 63

/-- A stream of the host library: the bytes of the underlying file or pipe,
the read cursor, the pushback stack (most recent first) with its capacity,
and what the position query reports. -/
structure FILE where
  fd : Int
  data : List Nat
  cur : Nat
  unget : List Nat
  ungetCap : Nat
  seekable : Bool
  tellErr : Int
  deriving DecidableEq

/-- The bytes the stream will still deliver, in order. -/
def remaining (s : FILE) : List Nat := s.unget ++ s.data.drop s.cur

/-- Host `fileno`. -/
def fileno (s : FILE) : Int := s.fd

/-- Host `ftell`: the cursor of a seekable stream (pushed-back bytes count
backwards), the placeholder `tellErr` (0 or -1) otherwise. -/
def ftell (s : FILE) : Int :=
  if s.seekable then (s.cur : Int) - (s.unget.length : Int) else s.tellErr

/-- The stream after `k` bytes have been taken from it. -/
def consume (k : Nat) (s : FILE) : FILE :=
  { s with unget := s.unget.drop k,
           cur := s.cur + min (k - s.unget.length) (s.data.length - s.cur) }

/-- Host `fgetc` (also `getc`, `_IO_getc`): next byte as an `int`, or `EOF`. -/
def fgetc_orig (s : FILE) : Int × FILE :=
  match remaining s with
  | [] => (EOF, s)
  | b :: _ => (((b % 256 : Nat) : Int), consume 1 s)

/-- Host `ungetc`: fails on `EOF` and when the pushback stack is full. -/
def ungetc_orig (c : Int) (s : FILE) : Int × FILE :=
  if c = EOF then (EOF, s)
  else if s.unget.length < s.ungetCap then
    ((c % 256), { s with unget := (c % 256).toNat :: s.unget })
  else (EOF, s)

/-- Where a host seek would put the cursor; `none` for an unknown `whence`. -/
def seekTarget (offset whence : Int) (s : FILE) : Option Int :=
  if whence = SEEK_SET then some offset
  else if whence = SEEK_CUR then some (ftell s + offset)
  else if whence = SEEK_END then some ((s.data.length : Int) + offset)
  else none

/-- Whether a cursor value is a valid file position: a non-negative `long`. -/
def validPos (t : Int) : Bool := decide (0 ≤ t ∧ t < 2 ^ 63)

/-- Host `fseek` / `fseeko`: 0 on success, -1 on failure (non-seekable stream,
unknown `whence`, target out of range); success drops the pushback. -/
def fseek_orig (offset whence : Int) (s : FILE) : Int × FILE :=
  if s.seekable then
    match seekTarget offset whence s with
    | some t =>
      if validPos t then (0, { s with cur := t.toNat, unget := [] })
      else (-1, s)
    | none => (-1, s)
  else (-1, s)

/-- Host `rewind`: `fseek(stream, 0, SEEK_SET)` with the result dropped. -/
def rewind_orig (s : FILE) : FILE := (fseek_orig 0 SEEK_SET s).2

/-- Writes `bytes` over the front of `buf`. -/
def store (bytes buf : List Nat) : List Nat := bytes ++ buf.drop bytes.length

/-- Host `fread`: stores up to `size * nmemb` bytes in `ptr`, returns the
number of complete elements; a partial element still moves the cursor. -/
def fread_orig (ptr : List Nat) (size nmemb : Nat) (s : FILE) :
    (Nat × List Nat) × FILE :=
  let bytes := ((remaining s).take (size * nmemb)).map (· % 256)
  ((bytes.length / size, store bytes ptr), consume bytes.length s)

/-- Length of the line a delimiter-bounded read takes from `bytes`: up to and
including the first byte equal to `delim`, or everything. -/
def lineLen (delim : Int) (bytes : List Nat) : Nat :=
  min (bytes.findIdx (fun b => ((b : Nat) : Int) = delim) + 1) bytes.length

/-- Host `fgets`: `NULL` (here `false`) when `size <= 0` or when nothing could
be read; otherwise at most `size - 1` bytes and a terminating NUL. -/
def fgets_orig (s : List Nat) (size : Int) (f : FILE) : (Bool × List Nat) × FILE :=
  if size ≤ 0 then ((false, s), f)
  else
    let avail := ((remaining f).take (size - 1).toNat).map (· % 256)
    let line := avail.take (lineLen 10 avail)
    if line = [] ∧ 1 < size then ((false, s), f)
    else ((true, store (line ++ [0]) s), consume line.length f)

/-- Host `realloc`: keeps the old contents up to the new size; fresh bytes
hold the unspecified value `junk`. -/
def realloc (junk : Nat) (line : List Nat) (size : Nat) : List Nat :=
  line.take size ++ List.replicate (size - line.length) junk

/-- Host `getdelim` (`getline` is `getdelim` with a newline): -1 at end of
stream, otherwise the line length; the line is NUL-terminated. -/
def getdelim_orig (junk : Nat) (lineptr : Option (List Nat)) (n : Nat) (delim : Int)
    (f : FILE) : (Int × Option (List Nat) × Nat) × FILE :=
  let avail := (remaining f).map (· % 256)
  let line := avail.take (lineLen delim avail)
  if line = [] then ((-1, lineptr, n), f)
  else
    let old := lineptr.getD []
    let size := if lineptr.isSome ∧ line.length < n then n else line.length + 1
    ((line.length, some (store (line ++ [0]) (realloc junk old size)), size),
      consume line.length f)

/-! ## The world of the wrappers -/

/-- The build-time switches of `config.h` that the wrappers test. -/
structure Config where
  HAVE___SREFILL : Bool
  deriving DecidableEq

/-- Differential-Reconciliation build: `HAVE___SREFILL` is not defined. -/
def cfgDiff : Config := { HAVE___SREFILL := false }

/-- Refill-Hook build: `HAVE___SREFILL` is defined. -/
def cfgRefill : Config := { HAVE___SREFILL := true }

/-- The diverted functions, for naming the real implementation in the log. -/
inductive Fn
  | fopen | fopen64 | freopen | fseek | fseeko | rewind | fread
  | getc | fgetc | _IO_getc | fgets | ungetc | getline | getdelim | __getdelim
  | __srefill
  deriving DecidableEq

/-- One call made by a wrapper: to a collaborator, or to a real
implementation (`orig`, with its integer arguments; `origOpen` for the
path-taking ones). `fuzz fd start len` is `_zz_fuzz(fd, buf, len)` called
while the logical offset of `fd` is `start`. -/
inductive Event
  | lock (fd : Int)
  | unlock (fd : Int)
  | register (fd : Int)
  | unregister (fd : Int)
  | mustwatch (path : String)
  | fuzz (fd : Int) (start : Int) (len : Int)
  | setpos (fd : Int) (p : Int)
  | addpos (fd : Int) (d : Int)
  | origOpen (fn : Fn) (path mode : String)
  | orig (fn : Fn) (args : List Int)
  deriving DecidableEq

/-- The corruption engine: a function of descriptor, logical offset and input
byte (the process-global seed is fixed inside it). -/
abbrev Engine := Int → Int → Nat → Nat

/-- Everything a wrapper can read or change: `_zz_ready`, the registry of
watched descriptors, the watch policy, the logical offsets, the stream the
call is about, what the real open calls find at a path, the value of
uninitialised heap bytes, and the log of calls made so far. -/
structure World where
  ready : Bool
  watched : Int → Bool
  policy : String → Bool
  pos : Int → Int
  file : FILE
  fsys : String → Option FILE
  junk : Nat
  log : List Event

/-- Appends an event to the log. -/
def emit (e : Event) (w : World) : World := { w with log := w.log ++ [e] }

/-- Modelled from the spec: `lock(descriptor)`, the mutual-exclusion
primitive of `fd.c`; only the call is recorded. -/
def _zz_lock (fd : Int) (w : World) : World := emit (.lock fd) w

/-- Modelled from the spec: `unlock(descriptor)` of `fd.c`. -/
def _zz_unlock (fd : Int) (w : World) : World := emit (.unlock fd) w

/-- Modelled from the spec: `is_watched(descriptor)` of `fd.c`. -/
def _zz_iswatched (fd : Int) (w : World) : Bool := w.watched fd

/-- Modelled from the spec: `should_watch(path)` of `fd.c`, the
descriptor-selection policy. -/
def _zz_mustwatch (path : String) (w : World) : Bool × World :=
  (w.policy path, emit (.mustwatch path) w)

/-- Modelled from the spec: `register(descriptor)` of `fd.c`; a new session
starts with logical offset 0. -/
def _zz_register (fd : Int) (w : World) : World :=
  emit (.register fd)
    { w with watched := fun x => if x = fd then true else w.watched x,
             pos := fun x => if x = fd then 0 else w.pos x }

/-- Modelled from the spec: `unregister(descriptor)` of `fd.c`. -/
def _zz_unregister (fd : Int) (w : World) : World :=
  emit (.unregister fd)
    { w with watched := fun x => if x = fd then false else w.watched x }

/-- Modelled from the spec: `set_position(descriptor, offset)` of `fd.c`. -/
def _zz_setpos (fd : Int) (p : Int) (w : World) : World :=
  emit (.setpos fd p) { w with pos := fun x => if x = fd then p else w.pos x }

/-- Modelled from the spec: `advance_position(descriptor, delta)` of `fd.c`. -/
def _zz_addpos (fd : Int) (d : Int) (w : World) : World :=
  emit (.addpos fd d) { w with pos := fun x => if x = fd then w.pos fd + d else w.pos x }

/-- The engine applied to one byte at logical offset `p`; the result is stored
in a `uint8_t`. -/
def fuzzByte (fz : Engine) (fd : Int) (p : Int) (b : Nat) : Nat := fz fd p b % 256

/-- Applies the engine to `n` bytes of `buf` starting at index `off`; the byte
at index `off + i` is keyed by offset `p + i`. -/
def fuzzBytes (fz : Engine) (fd : Int) : Int → List Nat → Nat → Nat → List Nat
  | _, [], _, _ => []
  | _, b :: bs, 0, 0 => b :: bs
  | p, b :: bs, 0, n + 1 => fuzzByte fz fd p b :: fuzzBytes fz fd (p + 1) bs 0 n
  | p, b :: bs, off + 1, n => b :: fuzzBytes fz fd p bs off n

/-- Modelled from the spec: `corrupt(descriptor, buffer, length)` of `fuzz.c`:
mutates `len` bytes at `buf + off` in place, as a deterministic function of
the descriptor and the current logical offset of the session. -/
def _zz_fuzz (fz : Engine) (fd : Int) (buf : List Nat) (off : Nat) (len : Int)
    (w : World) : List Nat × World :=
  (fuzzBytes fz fd (w.pos fd) buf off len.toNat, emit (.fuzz fd (w.pos fd) len) w)

/-- Calls a real implementation on the stream of the world, logging the call. -/
def callOrig {α : Type} (fn : Fn) (args : List Int) (f : FILE → α × FILE)
    (w : World) : α × World :=
  let r := f w.file
  (r.1, { emit (.orig fn args) w with file := r.2 })

/-! ## The wrappers of `lib-stream.c` -/

/-- Real `fopen` / `fopen64`: the stream found at `path`, or `NULL`. -/
def fopen_orig (fn : Fn) (path mode : String) (w : World) : Option FILE × World :=
  (w.fsys path, emit (.origOpen fn path mode) w)

/-- Real `freopen`: re-points the stream of the world to what is found at
`path`; `NULL` when nothing is. -/
def freopen_orig (path mode : String) (w : World) : Option FILE × World :=
  match w.fsys path with
  | some f => (some f, { emit (.origOpen .freopen path mode) w with file := f })
  | none => (none, emit (.origOpen .freopen path mode) w)

/-- The macro `FOPEN(fn)`, body of `fopen` and `fopen64`. -/
def FOPEN (fn : Fn) (path mode : String) (w : World) : Option FILE × World :=
  if !w.ready then fopen_orig fn path mode w
  else
    let w1 := _zz_lock (-1) w
    let r := fopen_orig fn path mode w1
    let w2 := _zz_unlock (-1) r.2
    match r.1 with
    | none => (none, w2)
    | some f =>
      let m := _zz_mustwatch path w2
      if m.1 then (some f, _zz_register (fileno f) m.2) else (some f, m.2)

/-- The wrapper `fopen`. -/
def fopen (path mode : String) (w : World) : Option FILE × World :=
  FOPEN .fopen path mode w

/-- The wrapper `fopen64`. -/
def fopen64 (path mode : String) (w : World) : Option FILE × World :=
  FOPEN .fopen64 path mode w

/-- The wrapper `freopen`; the stream argument is the stream of the world. -/
def freopen (path mode : String) (w : World) : Option FILE × World :=
  let fd0 := fileno w.file
  let w1 := if w.ready && decide (fd0 ≥ 0) && _zz_iswatched fd0 w
            then _zz_unregister fd0 w else w
  let w2 := _zz_lock (-1) w1
  let r := freopen_orig path mode w2
  let w3 := _zz_unlock (-1) r.2
  match r.1 with
  | none => (none, w3)
  | some f =>
    let m := _zz_mustwatch path w3
    if m.1 then (some f, _zz_register (fileno f) m.2) else (some f, m.2)

/-- The macro `FSEEK(fn, fn2)` with `FSEEK_FUZZ(fn2)`, body of `fseek` (with
`ftell`) and `fseeko` (with `ftello`). -/
def FSEEK (cfg : Config) (fn : Fn) (offset whence : Int) (w : World) : Int × World :=
  let fd := fileno w.file
  if !w.ready || !_zz_iswatched fd w then
    callOrig fn [fd, offset, whence] (fseek_orig offset whence) w
  else
    let w1 := _zz_lock fd w
    let r := callOrig fn [fd, offset, whence] (fseek_orig offset whence) w1
    let w2 := _zz_unlock fd r.2
    let ret := r.1
    if cfg.HAVE___SREFILL then (ret, w2)
    else if ret = 0 then
      if whence = SEEK_END then (ret, _zz_setpos fd (ftell w2.file) w2)
      else if whence = SEEK_SET then (ret, _zz_setpos fd offset w2)
      else if whence = SEEK_CUR then (ret, _zz_addpos fd offset w2)
      else (ret, w2)
    else (ret, w2)

/-- The wrapper `fseek`. -/
def fseek (cfg : Config) (offset whence : Int) (w : World) : Int × World :=
  FSEEK cfg .fseek offset whence w

/-- The wrapper `fseeko`. -/
def fseeko (cfg : Config) (offset whence : Int) (w : World) : Int × World :=
  FSEEK cfg .fseeko offset whence w

/-- The wrapper `rewind`. -/
def rewind (cfg : Config) (w : World) : World :=
  let fd := fileno w.file
  if !w.ready || !_zz_iswatched fd w then
    (callOrig .rewind [fd] (fun s => ((), rewind_orig s)) w).2
  else
    let w1 := _zz_lock fd w
    let w2 := (callOrig .rewind [fd] (fun s => ((), rewind_orig s)) w1).2
    let w3 := _zz_unlock fd w2
    if cfg.HAVE___SREFILL then w3 else _zz_setpos fd 0 w3

/-- The wrapper `fread`; returns the element count and the buffer `ptr`. -/
def fread (cfg : Config) (fz : Engine) (ptr : List Nat) (size nmemb : Nat) (w : World) :
    (Nat × List Nat) × World :=
  let fd := fileno w.file
  if !w.ready || !_zz_iswatched fd w then
    callOrig .fread [fd, size, nmemb] (fread_orig ptr size nmemb) w
  else
    let pos := ftell w.file
    let w1 := _zz_lock fd w
    let r := callOrig .fread [fd, size, nmemb] (fread_orig ptr size nmemb) w1
    let w2 := _zz_unlock fd r.2
    let ret := r.1.1
    let buf := r.1.2
    if cfg.HAVE___SREFILL then ((ret, buf), w2)
    else
      let newpos0 := ftell w2.file
      let newpos := if newpos0 ≤ 0 then toLong ((ret * size : Nat) : Int) else newpos0
      if newpos ≠ pos then
        let fr := _zz_fuzz fz fd buf 0 (newpos - pos) w2
        ((ret, fr.1), _zz_setpos fd newpos fr.2)
      else ((ret, buf), w2)

/-- The macro `FGETC(fn)` with `FGETC_FUZZ`, body of `getc`, `fgetc` and
`_IO_getc`. -/
def FGETC (cfg : Config) (fz : Engine) (fn : Fn) (w : World) : Int × World :=
  let fd := fileno w.file
  if !w.ready || !_zz_iswatched fd w then callOrig fn [fd] fgetc_orig w
  else
    let w1 := _zz_lock fd w
    let r := callOrig fn [fd] fgetc_orig w1
    let w2 := _zz_unlock fd r.2
    let ret := r.1
    if cfg.HAVE___SREFILL then (ret, w2)
    else if ret ≠ EOF then
      let ch := (ret % 256).toNat
      let fr := _zz_fuzz fz fd [ch] 0 1 w2
      let w3 := _zz_addpos fd 1 fr.2
      (((fr.1.headD 0 : Nat) : Int), w3)
    else (ret, w2)

/-- The wrapper `getc`. -/
def getc (cfg : Config) (fz : Engine) (w : World) : Int × World := FGETC cfg fz .getc w

/-- The wrapper `fgetc`. -/
def fgetc (cfg : Config) (fz : Engine) (w : World) : Int × World := FGETC cfg fz .fgetc w

/-- The wrapper `_IO_getc`. -/
def _IO_getc (cfg : Config) (fz : Engine) (w : World) : Int × World :=
  FGETC cfg fz ._IO_getc w

/-- The `for(i = 0; i < size - 1; i++)` loop of `fgets`; the first argument
counts the iterations left, `ret` is false once `ret = NULL`. -/
def fgetsLoop (fz : Engine) (fd : Int) :
    Nat → Nat → List Nat → Bool → World → (Bool × List Nat) × World
  | 0, _, s, ret, w => ((ret, s), w)
  | k + 1, i, s, ret, w =>
    let w1 := _zz_lock fd w
    let r := callOrig .fgetc [fd] fgetc_orig w1
    let w2 := _zz_unlock fd r.2
    let ch := r.1
    if ch = EOF then
      ((if i = 0 then false else ret, s.set i 0), w2)
    else
      let s1 := s.set i (ch % 256).toNat
      let fr := _zz_fuzz fz fd s1 i 1 w2
      let w3 := _zz_addpos fd 1 fr.2
      if fr.1.getD i 0 = 10 then ((ret, fr.1.set (i + 1) 0), w3)
      else fgetsLoop fz fd k (i + 1) fr.1 ret w3

/-- The wrapper `fgets`; returns whether the result is non-`NULL` and the
buffer `s`. -/
def fgets (cfg : Config) (fz : Engine) (s : List Nat) (size : Int) (w : World) :
    (Bool × List Nat) × World :=
  let fd := fileno w.file
  if !w.ready || !_zz_iswatched fd w then
    callOrig .fgets [fd, size] (fgets_orig s size) w
  else if cfg.HAVE___SREFILL then
    let w1 := _zz_lock fd w
    let r := callOrig .fgets [fd, size] (fgets_orig s size) w1
    (r.1, _zz_unlock fd r.2)
  else if size ≤ 0 then ((false, s), w)
  else if size = 1 then ((true, s.set 0 0), w)
  else fgetsLoop fz fd (size - 1).toNat 0 s true w

/-- The wrapper `ungetc`. -/
def ungetc (cfg : Config) (fz : Engine) (c : Int) (w : World) : Int × World :=
  let ch := (c % 256).toNat
  let fd := fileno w.file
  if !w.ready || !_zz_iswatched fd w then
    callOrig .ungetc [c, fd] (ungetc_orig c) w
  else
    let fr := if cfg.HAVE___SREFILL then ([ch], w)
              else _zz_fuzz fz fd [ch] 0 1 (_zz_addpos fd (-1) w)
    let ch1 := fr.1.headD 0
    let w1 := _zz_lock fd fr.2
    let r := callOrig .ungetc [(ch1 : Int), fd] (ungetc_orig (ch1 : Int)) w1
    let w2 := _zz_unlock fd r.2
    let ret := r.1
    if ret ≥ 0 then (c, w2)
    else if cfg.HAVE___SREFILL then (ret, w2)
    else (ret, _zz_addpos fd 1 w2)

/-- The buffer after `if(done >= size) line = realloc(line, size = done + 1);`. -/
def growLine (junk : Nat) (line : List Nat) (size : Int) (done : Nat) : List Nat :=
  if (done : Int) ≥ size then realloc junk line (done + 1) else line

/-- The variable `size` after `if(done >= size) line = realloc(line, size = done + 1);`. -/
def growSize (size : Int) (done : Nat) : Int :=
  if (done : Int) ≥ size then (done : Int) + 1 else size

/-- The `for(;;)` loop of the macro `GETDELIM`; the first argument bounds the
number of iterations. Result: `ret`, `*lineptr`, `*n`. -/
def getdelimLoop (fz : Engine) (fd : Int) (delim : Int) :
    Nat → List Nat → Int → Nat → Bool → Int → World →
      Option ((Int × List Nat × Nat) × World)
  | 0, _, _, _, _, _, _ => none
  | fuel + 1, line, size, done, finished, ret, w =>
    let line1 := growLine w.junk line size done
    let size1 := growSize size done
    if finished then
      some ((ret, line1.set done 0, size1.toNat), w)
    else
      let w1 := _zz_lock fd w
      let r := callOrig .fgetc [fd] fgetc_orig w1
      let w2 := _zz_unlock fd r.2
      let ch := r.1
      if ch = EOF then
        getdelimLoop fz fd delim fuel line1 size1 done true (done : Int) w2
      else
        let fr := _zz_fuzz fz fd [(ch % 256).toNat] 0 1 w2
        let c := fr.1.headD 0
        let line2 := line1.set done c
        let w3 := _zz_addpos fd 1 fr.2
        if (c : Int) = delim then
          getdelimLoop fz fd delim fuel line2 size1 (done + 1) true ((done : Int) + 1) w3
        else
          getdelimLoop fz fd delim fuel line2 size1 (done + 1) false ret w3

/-- The macro `GETDELIM(fn, delim, need_delim)`, body of `getline`,
`getdelim` and `__getdelim`. It has no `HAVE___SREFILL` branch: `_cfg` is not
consulted. `fuel` bounds the iterations of its loop. What its real `fgetc`
does through the diverted `__srefill` of a Refill-Hook build is modelled
apart, in `GETDELIM_refill`. -/
def GETDELIM (_cfg : Config) (fz : Engine) (_fn : Fn) (fuel : Nat)
    (lineptr : Option (List Nat)) (n : Nat) (delim : Int) (w : World) :
    Option ((Int × Option (List Nat) × Nat) × World) :=
  let fd := fileno w.file
  if !w.ready || !_zz_iswatched fd w then
    some (callOrig .getdelim [fd, delim] (getdelim_orig w.junk lineptr n delim) w)
  else
    let line := lineptr.getD []
    let size : Int := if lineptr.isSome then toLong (n : Int) else 0
    (getdelimLoop fz fd delim fuel line size 0 false 0 w).map
      (fun r => ((r.1.1, some r.1.2.1, r.1.2.2), r.2))

/-- The wrapper `getline`. -/
def getline (cfg : Config) (fz : Engine) (fuel : Nat) (lineptr : Option (List Nat))
    (n : Nat) (w : World) : Option ((Int × Option (List Nat) × Nat) × World) :=
  GETDELIM cfg fz .getline fuel lineptr n 10 w

/-- The wrapper `getdelim`. -/
def getdelim (cfg : Config) (fz : Engine) (fuel : Nat) (lineptr : Option (List Nat))
    (n : Nat) (delim : Int) (w : World) : Option ((Int × Option (List Nat) × Nat) × World) :=
  GETDELIM cfg fz .getdelim fuel lineptr n delim w

/-- The wrapper `__getdelim`. -/
def __getdelim (cfg : Config) (fz : Engine) (fuel : Nat) (lineptr : Option (List Nat))
    (n : Nat) (delim : Int) (w : World) : Option ((Int × Option (List Nat) × Nat) × World) :=
  GETDELIM cfg fz .__getdelim fuel lineptr n delim w

/-! ## Definitions used to state the properties -/

/-- The world after one byte went through the sequence lock, real character
read `fn`, unlock, corrupt one byte, advance by one. -/
def afterByte (fn : Fn) (fd : Int) (w : World) : World :=
  { w with pos := fun x => if x = fd then w.pos fd + 1 else w.pos x,
           file := consume 1 w.file,
           log := w.log ++ [.lock fd, .orig fn [fd], .unlock fd, .fuzz fd (w.pos fd) 1,
                            .addpos fd 1] }

/-- The world after a real character read `fn` under the lock hit end of
stream. -/
def afterEOF (fn : Fn) (fd : Int) (w : World) : World :=
  { w with log := w.log ++ [.lock fd, .orig fn [fd], .unlock fd] }

/-- The byte windows handed to the corruption engine for descriptor `fd`, in
call order, as (start, length). -/
def windows (fd : Int) : List Event → List (Int × Int)
  | [] => []
  | .fuzz fd1 start len :: es =>
    if fd1 = fd then (start, len) :: windows fd es else windows fd es
  | _ :: es => windows fd es

/-- How many of the windows contain offset `x`. -/
def coverCount (x : Int) (ws : List (Int × Int)) : Nat :=
  (ws.filter (fun sl => decide (sl.1 ≤ x ∧ x < sl.1 + sl.2))).length

/-- The windows `ws` each have positive length and are laid end to end from
`p` to `q`. -/
def Chain : Int → List (Int × Int) → Int → Prop
  | p, [], q => p = q
  | p, sl :: ws, q => sl.1 = p ∧ 0 < sl.2 ∧ Chain (p + sl.2) ws q

/-- The bytes `bytes` as a caller sees them when each is read as an
`unsigned char` and corrupted on its own, the first at logical offset `p`. -/
def corrupted (fz : Engine) (fd : Int) : Int → List Nat → List Nat
  | _, [] => []
  | p, b :: bs => fuzzByte fz fd p (b % 256) :: corrupted fz fd (p + 1) bs

/-- The number of bytes a delimiter-bounded read takes from `bytes` when they
are corrupted one by one from logical offset `p`: the shortest prefix whose
last corrupted byte equals `delim`, or all of them. -/
def readLen (fz : Engine) (fd : Int) (p : Int) (delim : Int) (bytes : List Nat) : Nat :=
  lineLen delim (corrupted fz fd p bytes)

/-- The windows of `k` one-byte corruptions at consecutive offsets from `p`. -/
def unitWindows : Int → Nat → List (Int × Int)
  | _, 0 => []
  | p, k + 1 => (p, 1) :: unitWindows (p + 1) k

/-- World `w1` is world `w` after `k` bytes were taken from the stream, the
logical offset of `fd` advanced by `k`, and the windows `ws` were handed to
the engine. -/
def Reads (fd : Int) (w w1 : World) (k : Nat) (ws : List (Int × Int)) : Prop :=
  w1.ready = w.ready ∧ w1.watched = w.watched ∧ w1.file = consume k w.file ∧
  w1.pos fd = w.pos fd + k ∧ windows fd w1.log = windows fd w.log ++ ws

/-- One read call on the stream of the world, with the arguments of the
caller. -/
inductive ReadOp
  | fgetc
  | getc
  | fgets (s : List Nat) (size : Int)
  | getline (lineptr : Option (List Nat)) (n : Nat)
  | getdelim (lineptr : Option (List Nat)) (n : Nat) (delim : Int)
  | fread (ptr : List Nat) (size nmemb : Nat)

/-- The world after one read call; `none` when a loop ran out of `fuel`. -/
def runOp (cfg : Config) (fz : Engine) (fuel : Nat) : ReadOp → World → Option World
  | .fgetc, w => some (fgetc cfg fz w).2
  | .getc, w => some (getc cfg fz w).2
  | .fgets s size, w => some (fgets cfg fz s size w).2
  | .getline lineptr n, w => (getline cfg fz fuel lineptr n w).map (fun r => r.2)
  | .getdelim lineptr n delim, w => (getdelim cfg fz fuel lineptr n delim w).map (fun r => r.2)
  | .fread ptr size nmemb, w => some (fread cfg fz ptr size nmemb w).2

/-- The world after a sequence of read calls, made in order. -/
def runOps (cfg : Config) (fz : Engine) (fuel : Nat) : List ReadOp → World → Option World
  | [], w => some w
  | op :: ops, w => (runOp cfg fz fuel op w).bind (runOps cfg fz fuel ops)

/-! ## The Refill-Hook build: the diverted `__srefill`

In a build with `HAVE___SREFILL` the host library is a BSD one: its `fgetc`
takes bytes from the read buffer of the stream and, when the buffer is empty,
calls `__srefill`, which the build diverts to the wrapper of `lib-stream.c`.
The definitions above leave that path out of the host `fgetc`; here it is. -/

/-- A stream of a BSD host library together with the world of the wrappers:
`rbuf` holds the `fp->_r` bytes at `fp->_p` that the last refill fetched and
that were not read yet, `bufsiz` is the number of bytes a refill asks for. In
such a world `world.file.cur` is the offset of the descriptor, which runs
ahead of the reads by the bytes in `rbuf`; pushback is not modelled. -/
structure BsdWorld where
  world : World
  rbuf : List Nat
  bufsiz : Nat

/-- Applies a step of the wrappers to the world inside a `BsdWorld`. -/
def BsdWorld.on (f : World → World) (s : BsdWorld) : BsdWorld :=
  { s with world := f s.world }

/-- Whether, after the calls in the log, the last lock or unlock call for `fd`
was a lock; `b` is the state before the log. -/
def lockedAfter (fd : Int) : List Event → Bool → Bool
  | [], b => b
  | .lock fd1 :: es, b => lockedAfter fd es (if fd1 = fd then true else b)
  | .unlock fd1 :: es, b => lockedAfter fd es (if fd1 = fd then false else b)
  | _ :: es, b => lockedAfter fd es b

/-- Modelled from the spec: `is_locked(descriptor)` of `fd.c`. -/
def _zz_islocked (fd : Int) (w : World) : Bool := lockedAfter fd w.log false

/-- Host `lseek(fd, 0, SEEK_CUR)`: the offset of the descriptor, -1 on a
pipe. -/
def lseek (s : FILE) : Int := if s.seekable then (s.cur : Int) else -1

/-- Host `__srefill` of a BSD library: fetches up to `bufsiz` bytes from the
descriptor into the read buffer; 0 on success, `EOF` when nothing is left. -/
def __srefill_orig (s : BsdWorld) : Int × BsdWorld :=
  let f := s.world.file
  let bytes := ((f.data.drop f.cur).take s.bufsiz).map (· % 256)
  let w := emit (.orig .__srefill [f.fd]) s.world
  if bytes.isEmpty then (EOF, { s with world := w, rbuf := [] })
  else
    (0, { s with world := { w with file := { f with cur := f.cur + bytes.length } },
                 rbuf := bytes })

/-- The wrapper `__srefill`, which exists only in a Refill-Hook build. -/
def __srefill (fz : Engine) (s : BsdWorld) : Int × BsdWorld :=
  let fd := fileno s.world.file
  if !s.world.ready || !_zz_iswatched fd s.world then __srefill_orig s
  else
    let tmp := _zz_islocked fd s.world
    let s1 := s.on (_zz_lock fd)
    let r := __srefill_orig s1
    let ret := r.1
    let newpos := lseek r.2.world.file
    let s2 := if !tmp then r.2.on (_zz_unlock fd) else r.2
    if ret ≠ EOF then
      let n : Int := (s2.rbuf.length : Int)
      let w3 := if newpos ≠ -1 then _zz_setpos fd (newpos - n) s2.world else s2.world
      let fr := _zz_fuzz fz fd s2.rbuf 0 n w3
      let w4 := _zz_addpos fd n fr.2
      (ret, { s2 with world := w4, rbuf := fr.1 })
    else (ret, s2)

/-- Host `fgetc` of a BSD library in a Refill-Hook build: the next byte of the
read buffer; on an empty buffer it calls `__srefill`, that is the wrapper,
and takes the first byte of what was fetched, or returns `EOF`. -/
def fgetc_bsd (fz : Engine) (s : BsdWorld) : Int × BsdWorld :=
  match s.rbuf with
  | b :: rest => (((b % 256 : Nat) : Int), { s with rbuf := rest })
  | [] =>
    let r := __srefill fz s
    if r.1 = 0 then
      match r.2.rbuf with
      | b :: rest => (((b % 256 : Nat) : Int), { r.2 with rbuf := rest })
      | [] => (EOF, r.2)
    else (EOF, r.2)

/-- Read loop of the host `getdelim` of a BSD library: the bytes up to and
including the first equal to `delim`, or up to end of stream, each taken with
`fgetc_bsd`. -/
def readLineBsd (fz : Engine) (delim : Int) :
    Nat → List Nat → BsdWorld → Option (List Nat × BsdWorld)
  | 0, _, _ => none
  | fuel + 1, acc, s =>
    let r := fgetc_bsd fz s
    if r.1 = EOF then some (acc, r.2)
    else if r.1 = delim then some (acc ++ [r.1.toNat], r.2)
    else readLineBsd fz delim fuel (acc ++ [r.1.toNat]) r.2

/-- Host `getdelim` of a BSD library: -1 at end of stream, otherwise the line
length; the line is NUL-terminated. -/
def getdelim_orig_bsd (fz : Engine) (fuel : Nat) (lineptr : Option (List Nat)) (n : Nat)
    (delim : Int) (s : BsdWorld) : Option ((Int × Option (List Nat) × Nat) × BsdWorld) :=
  (readLineBsd fz delim fuel [] s).map (fun r =>
    if r.1.isEmpty then ((-1, lineptr, n), r.2)
    else
      let size := if lineptr.isSome ∧ r.1.length < n then n else r.1.length + 1
      (((r.1.length : Int),
        some (store (r.1 ++ [0]) (realloc r.2.world.junk (lineptr.getD []) size)), size), r.2))

/-- The `for(;;)` loop of the macro `GETDELIM` in a Refill-Hook build: the
statements of `getdelimLoop`, with the real `fgetc` being `fgetc_bsd`. -/
def getdelimLoopRefill (fz : Engine) (fd : Int) (delim : Int) :
    Nat → List Nat → Int → Nat → Bool → Int → BsdWorld →
      Option ((Int × List Nat × Nat) × BsdWorld)
  | 0, _, _, _, _, _, _ => none
  | fuel + 1, line, size, done, finished, ret, s =>
    let line1 := growLine s.world.junk line size done
    let size1 := growSize size done
    if finished then
      some ((ret, line1.set done 0, size1.toNat), s)
    else
      let s1 := s.on (_zz_lock fd)
      let r := fgetc_bsd fz (s1.on (emit (.orig .fgetc [fd])))
      let s2 := r.2.on (_zz_unlock fd)
      let ch := r.1
      if ch = EOF then
        getdelimLoopRefill fz fd delim fuel line1 size1 done true (done : Int) s2
      else
        let fr := _zz_fuzz fz fd [(ch % 256).toNat] 0 1 s2.world
        let c := fr.1.headD 0
        let line2 := line1.set done c
        let s3 : BsdWorld := { s2 with world := _zz_addpos fd 1 fr.2 }
        if (c : Int) = delim then
          getdelimLoopRefill fz fd delim fuel line2 size1 (done + 1) true ((done : Int) + 1) s3
        else
          getdelimLoopRefill fz fd delim fuel line2 size1 (done + 1) false ret s3

/-- The macro `GETDELIM(fn, delim, need_delim)` in a Refill-Hook build: the
statements of `GETDELIM` over a `BsdWorld`. -/
def GETDELIM_refill (fz : Engine) (_fn : Fn) (fuel : Nat) (lineptr : Option (List Nat))
    (n : Nat) (delim : Int) (s : BsdWorld) :
    Option ((Int × Option (List Nat) × Nat) × BsdWorld) :=
  let fd := fileno s.world.file
  if !s.world.ready || !_zz_iswatched fd s.world then
    getdelim_orig_bsd fz fuel lineptr n delim (s.on (emit (.orig .getdelim [fd, delim])))
  else
    let line := lineptr.getD []
    let size : Int := if lineptr.isSome then toLong (n : Int) else 0
    (getdelimLoopRefill fz fd delim fuel line size 0 false 0 s).map
      (fun r => ((r.1.1, some r.1.2.1, r.1.2.2), r.2))

/-- The wrapper `getline` in a Refill-Hook build. -/
def getline_refill (fz : Engine) (fuel : Nat) (lineptr : Option (List Nat)) (n : Nat)
    (s : BsdWorld) : Option ((Int × Option (List Nat) × Nat) × BsdWorld) :=
  GETDELIM_refill fz .getline fuel lineptr n 10 s

/-- The wrapper `getdelim` in a Refill-Hook build. -/
def getdelim_refill (fz : Engine) (fuel : Nat) (lineptr : Option (List Nat)) (n : Nat)
    (delim : Int) (s : BsdWorld) : Option ((Int × Option (List Nat) × Nat) × BsdWorld) :=
  GETDELIM_refill fz .getdelim fuel lineptr n delim s

/-! ## Sample engines, streams and worlds -/

/-- The engine that leaves every byte as it is. -/
def idEngine : Engine := fun _ _ b => b

/-- An engine that adds one to every byte: deterministic, but applying it
three times is not the same as applying it once. -/
def incEngine : Engine := fun _ _ b => b + 1

/-- An engine that complements every byte (XOR with `0xff`). -/
def notEngine : Engine := fun _ _ b => 255 - b % 256

/-- A seekable stream on descriptor 3 over `data`, cursor at 0, room for one
byte of pushback. -/
def fileOf (data : List Nat) : FILE :=
  { fd := 3, data := data, cur := 0, unget := [], ungetCap := 1, seekable := true,
    tellErr := 0 }

/-- A pipe on descriptor 3 delivering `data`: not seekable, the position query
reports -1. -/
def pipeOf (data : List Nat) : FILE :=
  { fileOf data with seekable := false, tellErr := -1 }

/-- An armed world whose stream `f` is the only watched one, at logical
offset `p`, with an empty log; every path is watched and opens an empty file
on descriptor 3. -/
def worldOf (f : FILE) (p : Int) : World :=
  { ready := true, watched := fun x => decide (x = f.fd), policy := fun _ => true,
    pos := fun _ => p, file := f, fsys := fun _ => some (fileOf []), junk := 7, log := [] }

/-- The world `worldOf f p` before the layer is armed: `_zz_ready` is false
and nothing is watched yet. -/
def unarmedWorldOf (f : FILE) (p : Int) : World :=
  { worldOf f p with ready := false, watched := fun _ => false }

/-- The world `worldOf f p` in a Refill-Hook build: the read buffer is empty
and a refill asks for `bufsiz` bytes. -/
def bsdWorldOf (f : FILE) (p : Int) (bufsiz : Nat) : BsdWorld :=
  { world := worldOf f p, rbuf := [], bufsiz := bufsiz }

/-- The text `abc\ndef`. -/
def abcdef : List Nat := [97, 98, 99, 10, 100, 101, 102]

/-- A file of 100 bytes. -/
def hundred : List Nat := List.replicate 100 65

/-- A caller buffer of 50 bytes. -/
def buf50 : List Nat := List.replicate 50 0

/-! ## The host stream -/

theorem validPos_nonneg {t : Int} (h : validPos t = true) : 0 ≤ t := by
  unfold validPos at h
  exact (of_decide_eq_true h).1

theorem fseek_orig_fail (offset whence : Int) (s : FILE)
    (h : (fseek_orig offset whence s).1 ≠ 0) : (fseek_orig offset whence s).2 = s := by
  unfold fseek_orig at h ⊢
  by_cases hs : s.seekable = true
  · cases ht : seekTarget offset whence s with
    | none => simp [hs]
    | some t =>
      cases hr : validPos t
      · simp [hs, hr]
      · simp [hs, ht, hr] at h
  · simp [hs]

theorem fseek_orig_ok (offset whence : Int) (s : FILE)
    (h : (fseek_orig offset whence s).1 = 0) :
    s.seekable = true ∧
    0 ≤ ftell (fseek_orig offset whence s).2 ∧
    seekTarget offset whence s = some (ftell (fseek_orig offset whence s).2) ∧
    (fseek_orig offset whence s).2.fd = s.fd := by
  unfold fseek_orig at h ⊢
  by_cases hs : s.seekable = true
  · cases ht : seekTarget offset whence s with
    | none => simp [hs, ht] at h
    | some t =>
      cases hr : validPos t
      · simp [hs, ht, hr] at h
      · simp [hs, hr, ftell, validPos_nonneg hr]
  · simp [hs] at h

theorem remaining_consume (k : Nat) (s : FILE) :
    remaining (consume k s) = (remaining s).drop k := by
  unfold remaining consume
  simp only [List.drop_append_eq_append_drop, List.drop_drop]
  rcases Nat.le_total (k - s.unget.length) (s.data.length - s.cur) with h | h
  · rw [Nat.min_eq_left h]
  · rw [Nat.min_eq_right h]
    have h1 : List.drop (s.cur + (s.data.length - s.cur)) s.data = [] :=
      List.drop_eq_nil_of_le (by omega)
    have h2 : List.drop (s.cur + (k - s.unget.length)) s.data = [] :=
      List.drop_eq_nil_of_le (by omega)
    rw [h1, h2]

theorem remaining_length (s : FILE) :
    (remaining s).length = s.unget.length + (s.data.length - s.cur) := by
  simp [remaining]

theorem ftell_consume (k : Nat) (s : FILE) (hs : s.seekable = true)
    (hk : k ≤ (remaining s).length) : ftell (consume k s) = ftell s + k := by
  rw [remaining_length] at hk
  simp only [ftell, consume, hs, if_true, List.length_drop]
  omega

@[simp] theorem consume_fd (k : Nat) (s : FILE) : (consume k s).fd = s.fd := rfl

@[simp] theorem consume_seekable (k : Nat) (s : FILE) :
    (consume k s).seekable = s.seekable := rfl

theorem consume_zero (s : FILE) : consume 0 s = s := by
  simp [consume]

theorem fgetc_orig_nil (s : FILE) (h : remaining s = []) : fgetc_orig s = (EOF, s) := by
  simp [fgetc_orig, h]

theorem fgetc_orig_cons (s : FILE) (b : Nat) (rest : List Nat) (h : remaining s = b :: rest) :
    fgetc_orig s = (((b % 256 : Nat) : Int), consume 1 s) := by
  simp [fgetc_orig, h]

theorem byte_toNat (b : Nat) : ((b : Int) % 256).toNat = b % 256 := by
  have h : (b : Int) % 256 = ((b % 256 : Nat) : Int) := by omega
  rw [h]
  exact Int.toNat_natCast _

theorem byte_ne_eof (b : Nat) : ¬ ((b : Int) % 256 = EOF) := by
  show ¬ ((b : Int) % 256 = -1)
  omega

theorem zz_fuzz_one (fz : Engine) (fd : Int) (ch : Nat) (w : World) :
    _zz_fuzz fz fd [ch] 0 1 w
      = ([fuzzByte fz fd (w.pos fd) ch], emit (.fuzz fd (w.pos fd) 1) w) := by
  simp [_zz_fuzz, fuzzBytes]

theorem FGETC_byte (fz : Engine) (fn : Fn) (w : World) (b : Nat) (rest : List Nat)
    (hr : w.ready = true) (hw : w.watched w.file.fd = true)
    (h : remaining w.file = b :: rest) :
    FGETC cfgDiff fz fn w
      = (((fuzzByte fz w.file.fd (w.pos w.file.fd) (b % 256) : Nat) : Int),
          afterByte fn w.file.fd w) := by
  simp [FGETC, hr, hw, _zz_iswatched, fileno, callOrig, cfgDiff, _zz_lock, _zz_unlock, emit,
    fgetc_orig_cons _ _ _ h, zz_fuzz_one, _zz_addpos, afterByte, byte_toNat, byte_ne_eof]

theorem FGETC_eof (fz : Engine) (fn : Fn) (w : World)
    (hr : w.ready = true) (hw : w.watched w.file.fd = true)
    (h : remaining w.file = []) :
    FGETC cfgDiff fz fn w = (EOF, afterEOF fn w.file.fd w) := by
  simp [FGETC, hr, hw, _zz_iswatched, fileno, callOrig, cfgDiff, _zz_lock, _zz_unlock, emit,
    fgetc_orig_nil _ h, afterEOF]

theorem afterByte_pos (fn : Fn) (fd : Int) (w : World) :
    (afterByte fn fd w).pos fd = w.pos fd + 1 := by
  simp [afterByte]

/-! ## One byte through a wrapper -/

theorem fuzzByte_lt (fz : Engine) (fd p : Int) (b : Nat) : fuzzByte fz fd p b < 256 :=
  Nat.mod_lt _ (by decide)

theorem ungetc_orig_byte (c : Nat) (hc : c < 256) (s : FILE) :
    ungetc_orig (c : Int) s
      = if s.unget.length < s.ungetCap then ((c : Int), { s with unget := c :: s.unget })
        else (EOF, s) := by
  have h1 : ¬ ((c : Int) = EOF) := by
    show ¬ ((c : Int) = -1)
    omega
  have h2 : (c : Int) % 256 = (c : Int) := by omega
  unfold ungetc_orig
  rw [if_neg h1, h2, Int.toNat_natCast]

theorem ungetc_ok (fz : Engine) (c : Nat) (w : World) (hc : c < 256)
    (hr : w.ready = true) (hw : w.watched w.file.fd = true)
    (h : (ungetc cfgDiff fz (c : Int) w).1 ≠ EOF) :
    (ungetc cfgDiff fz (c : Int) w).2.ready = true ∧
    (ungetc cfgDiff fz (c : Int) w).2.watched = w.watched ∧
    (ungetc cfgDiff fz (c : Int) w).2.file.fd = w.file.fd ∧
    (ungetc cfgDiff fz (c : Int) w).2.pos w.file.fd = w.pos w.file.fd + -1 ∧
    remaining (ungetc cfgDiff fz (c : Int) w).2.file
      = fuzzByte fz w.file.fd (w.pos w.file.fd + -1) c :: remaining w.file := by
  have hb := fuzzByte_lt fz w.file.fd (w.pos w.file.fd + -1) c
  have hc2 : c % 256 = c := Nat.mod_eq_of_lt hc
  revert h
  simp only [ungetc, hr, hw, _zz_iswatched, fileno, callOrig, cfgDiff, _zz_lock, _zz_unlock, emit,
    zz_fuzz_one, _zz_addpos, byte_toNat, hc2, ungetc_orig_byte _ hb, Bool.not_true, Bool.or_self,
    Bool.false_eq_true, if_false, if_true, List.headD_cons]
  by_cases hcap : w.file.unget.length < w.file.ungetCap
  · simp [hcap, remaining]
  · simp [hcap]

theorem FSEEK_ret (fn : Fn) (offset whence : Int) (w : World)
    (hr : w.ready = true) (hw : w.watched w.file.fd = true) :
    (FSEEK cfgDiff fn offset whence w).1 = (fseek_orig offset whence w.file).1 := by
  simp only [FSEEK, hr, hw, _zz_iswatched, fileno, callOrig, cfgDiff, _zz_lock, _zz_unlock, emit]
  split_ifs <;> rfl

theorem FSEEK_file (fn : Fn) (offset whence : Int) (w : World)
    (hr : w.ready = true) (hw : w.watched w.file.fd = true) :
    (FSEEK cfgDiff fn offset whence w).2.file = (fseek_orig offset whence w.file).2 := by
  simp only [FSEEK, hr, hw, _zz_iswatched, fileno, callOrig, cfgDiff, _zz_lock, _zz_unlock, emit,
    _zz_setpos, _zz_addpos]
  split_ifs <;> rfl

theorem FSEEK_pos (fn : Fn) (offset whence : Int) (w : World)
    (hr : w.ready = true) (hw : w.watched w.file.fd = true) :
    (FSEEK cfgDiff fn offset whence w).2.pos w.file.fd =
      if (fseek_orig offset whence w.file).1 = 0 then
        if whence = SEEK_END then ftell (fseek_orig offset whence w.file).2
        else if whence = SEEK_SET then offset
        else if whence = SEEK_CUR then w.pos w.file.fd + offset
        else w.pos w.file.fd
      else w.pos w.file.fd := by
  simp only [FSEEK, hr, hw, _zz_iswatched, fileno, callOrig, cfgDiff, _zz_lock, _zz_unlock, emit,
    _zz_setpos, _zz_addpos]
  split_ifs <;> first | rfl | simp_all

theorem getdelimLoop_fin (fz : Engine) (fd delim : Int) (fuel : Nat) (line : List Nat)
    (size : Int) (done : Nat) (ret : Int) (w : World) :
    getdelimLoop fz fd delim (fuel + 1) line size done true ret w
      = some ((ret, (growLine w.junk line size done).set done 0,
          (growSize size done).toNat), w) := by
  simp [getdelimLoop]

theorem getdelimLoop_eof (fz : Engine) (fd delim : Int) (fuel : Nat) (line : List Nat)
    (size : Int) (done : Nat) (ret : Int) (w : World) (h : remaining w.file = []) :
    getdelimLoop fz fd delim (fuel + 1) line size done false ret w
      = getdelimLoop fz fd delim fuel (growLine w.junk line size done) (growSize size done)
          done true (done : Int) (afterEOF .fgetc fd w) := by
  simp [getdelimLoop, callOrig, _zz_lock, _zz_unlock, emit, fgetc_orig_nil _ h, afterEOF]

theorem getdelimLoop_byte (fz : Engine) (fd delim : Int) (fuel : Nat) (line : List Nat)
    (size : Int) (done : Nat) (ret : Int) (w : World) (b : Nat) (rest : List Nat)
    (h : remaining w.file = b :: rest) :
    getdelimLoop fz fd delim (fuel + 1) line size done false ret w
      = if ((fuzzByte fz fd (w.pos fd) (b % 256) : Nat) : Int) = delim then
          getdelimLoop fz fd delim fuel
            ((growLine w.junk line size done).set done (fuzzByte fz fd (w.pos fd) (b % 256)))
            (growSize size done) (done + 1) true ((done : Int) + 1) (afterByte .fgetc fd w)
        else
          getdelimLoop fz fd delim fuel
            ((growLine w.junk line size done).set done (fuzzByte fz fd (w.pos fd) (b % 256)))
            (growSize size done) (done + 1) false ret (afterByte .fgetc fd w) := by
  simp [getdelimLoop, callOrig, _zz_lock, _zz_unlock, emit, fgetc_orig_cons _ _ _ h, afterByte,
    zz_fuzz_one, _zz_addpos, byte_toNat, byte_ne_eof]

theorem windows_append (fd : Int) (a b : List Event) :
    windows fd (a ++ b) = windows fd a ++ windows fd b := by
  induction a with
  | nil => rfl
  | cons e es ih =>
    cases e <;> simp [windows, ih]
    split_ifs <;> simp

theorem consume_consume (j k : Nat) (s : FILE) : consume k (consume j s) = consume (j + k) s := by
  simp only [consume, List.drop_drop, List.length_drop]
  congr 1
  omega

theorem Reads.refl (fd : Int) (w : World) : Reads fd w w 0 [] := by
  simp [Reads, consume_zero]

theorem Reads.trans {fd : Int} {w w1 w2 : World} {j k : Nat} {ws1 ws2 : List (Int × Int)}
    (h1 : Reads fd w w1 j ws1) (h2 : Reads fd w1 w2 k ws2) :
    Reads fd w w2 (j + k) (ws1 ++ ws2) := by
  obtain ⟨a1, a2, a3, a4, a5⟩ := h1
  obtain ⟨b1, b2, b3, b4, b5⟩ := h2
  refine ⟨b1.trans a1, b2.trans a2, ?_, ?_, ?_⟩
  · rw [b3, a3, consume_consume]
  · rw [b4, a4]; push_cast; omega
  · rw [b5, a5, List.append_assoc]

theorem Reads_afterByte (fn : Fn) (fd : Int) (w : World) :
    Reads fd w (afterByte fn fd w) 1 [(w.pos fd, 1)] := by
  simp [Reads, afterByte, windows_append, windows]

theorem Reads_afterEOF (fn : Fn) (fd : Int) (w : World) :
    Reads fd w (afterEOF fn fd w) 0 [] := by
  simp [Reads, afterEOF, windows_append, windows, consume_zero]

theorem lineLen_nil (delim : Int) : lineLen delim [] = 0 := by
  simp [lineLen]

theorem lineLen_cons_eq (delim : Int) (c : Nat) (cs : List Nat) (h : (c : Int) = delim) :
    lineLen delim (c :: cs) = 1 := by
  simp [lineLen, List.findIdx_cons, h]

theorem lineLen_cons_ne (delim : Int) (c : Nat) (cs : List Nat) (h : ¬ (c : Int) = delim) :
    lineLen delim (c :: cs) = lineLen delim cs + 1 := by
  simp only [lineLen, List.findIdx_cons, h, decide_False, cond_false, List.length_cons]
  omega

theorem take_set_self (l : List Nat) (n c : Nat) : (l.set n c).take n = l.take n := by
  induction l generalizing n with
  | nil => simp
  | cons a as ih =>
    cases n with
    | zero => simp
    | succ m => simp [ih]

theorem take_set_succ (l : List Nat) (n c : Nat) (h : n < l.length) :
    (l.set n c).take (n + 1) = l.take n ++ [c] := by
  induction l generalizing n with
  | nil => simp at h
  | cons a as ih =>
    cases n with
    | zero => simp
    | succ m =>
      simp only [List.length_cons, Nat.add_lt_add_iff_right] at h
      simp [ih m h]

theorem get_set_self (l : List Nat) (n c : Nat) (h : n < l.length) :
    (l.set n c)[n]? = some c := by
  induction l generalizing n with
  | nil => simp at h
  | cons a as ih =>
    cases n with
    | zero => simp
    | succ m =>
      simp only [List.length_cons, Nat.add_lt_add_iff_right] at h
      simpa using ih m h

theorem realloc_length (junk : Nat) (line : List Nat) (size : Nat) :
    (realloc junk line size).length = size := by
  simp only [realloc, List.length_append, List.length_take, List.length_replicate]
  omega

theorem realloc_take (junk : Nat) (line : List Nat) (size k : Nat) (h1 : k ≤ size)
    (h2 : k ≤ line.length) : (realloc junk line size).take k = line.take k := by
  unfold realloc
  rw [List.take_append_of_le_length (by simp; omega), List.take_take, Nat.min_eq_left h1]

theorem grow_spec (junk : Nat) (line : List Nat) (size : Int) (done : Nat)
    (hlen : size ≤ (line.length : Int)) (hdone : done ≤ line.length) :
    (done : Int) < growSize size done ∧
    growSize size done ≤ ((growLine junk line size done).length : Int) ∧
    (growLine junk line size done).take done = line.take done := by
  unfold growSize growLine
  by_cases h : (done : Int) ≥ size
  · simp only [h, if_true, realloc_length]
    refine ⟨by omega, by push_cast; omega, realloc_take _ _ _ _ (by omega) hdone⟩
  · simp only [h, if_false]
    refine ⟨by omega, hlen, trivial⟩

theorem growSize_gt (size : Int) (done : Nat) : (done : Int) < growSize size done := by
  unfold growSize
  split_ifs <;> omega

theorem finish_spec (junk : Nat) (line : List Nat) (size : Int) (done : Nat)
    (hlen : size ≤ (line.length : Int)) (hdone : done ≤ line.length) :
    ((growLine junk line size done).set done 0).take done = line.take done ∧
    ((growLine junk line size done).set done 0)[done]? = some 0 ∧
    done < (growSize size done).toNat ∧
    (growSize size done).toNat ≤ ((growLine junk line size done).set done 0).length := by
  obtain ⟨h1, h2, h3⟩ := grow_spec junk line size done hlen hdone
  refine ⟨?_, ?_, ?_, ?_⟩
  · rw [take_set_self, h3]
  · exact get_set_self _ _ _ (by omega)
  · omega
  · rw [List.length_set]; omega

theorem getdelimLoop_run (fz : Engine) (fd delim : Int) (rem : List Nat) :
    ∀ (fuel : Nat) (line : List Nat) (size : Int) (done : Nat) (ret : Int) (w : World),
      remaining w.file = rem → rem.length + 2 ≤ fuel →
      ∃ L N w1,
        getdelimLoop fz fd delim fuel line size done false ret w
          = some ((((done + lineLen delim (corrupted fz fd (w.pos fd) rem) : Nat) : Int), L, N),
              w1) ∧
        Reads fd w w1 (lineLen delim (corrupted fz fd (w.pos fd) rem))
          (unitWindows (w.pos fd) (lineLen delim (corrupted fz fd (w.pos fd) rem))) ∧
        (size ≤ (line.length : Int) → done ≤ line.length →
          L.take (done + lineLen delim (corrupted fz fd (w.pos fd) rem))
            = line.take done
              ++ (corrupted fz fd (w.pos fd) rem).take
                  (lineLen delim (corrupted fz fd (w.pos fd) rem)) ∧
          L[done + lineLen delim (corrupted fz fd (w.pos fd) rem)]? = some 0 ∧
          done + lineLen delim (corrupted fz fd (w.pos fd) rem) < N ∧ N ≤ L.length) := by
  induction rem with
  | nil =>
    intro fuel line size done ret w hrem hfuel
    obtain ⟨f, rfl⟩ : ∃ f, fuel = f + 2 := ⟨fuel - 2, by simp at hfuel; omega⟩
    rw [getdelimLoop_eof fz fd delim (f + 1) line size done ret w hrem, getdelimLoop_fin]
    simp only [corrupted, lineLen_nil, Nat.add_zero, List.take_zero, List.append_nil, unitWindows]
    refine ⟨_, _, _, rfl, Reads_afterEOF _ _ _, ?_⟩
    intro hlen hdone
    obtain ⟨g1, g2, g3⟩ := grow_spec w.junk line size done hlen hdone
    have g4 : done ≤ (growLine w.junk line size done).length := by omega
    obtain ⟨e1, e2, e3, e4⟩ :=
      finish_spec w.junk (growLine w.junk line size done) (growSize size done) done g2 g4
    exact ⟨by rw [show (afterEOF Fn.fgetc fd w).junk = w.junk from rfl, e1, g3], e2, e3, e4⟩
  | cons b rest ih =>
    intro fuel line size done ret w hrem hfuel
    obtain ⟨f, rfl⟩ : ∃ f, fuel = f + 1 := ⟨fuel - 1, by simp at hfuel; omega⟩
    have hf : rest.length + 2 ≤ f := by simpa using hfuel
    rw [getdelimLoop_byte fz fd delim f line size done ret w b rest hrem]
    have hcor : corrupted fz fd (w.pos fd) (b :: rest)
        = fuzzByte fz fd (w.pos fd) (b % 256) :: corrupted fz fd (w.pos fd + 1) rest := rfl
    by_cases hc : ((fuzzByte fz fd (w.pos fd) (b % 256) : Nat) : Int) = delim
    · rw [if_pos hc]
      obtain ⟨f2, rfl⟩ : ∃ f2, f = f2 + 1 := ⟨f - 1, by omega⟩
      rw [getdelimLoop_fin, hcor, lineLen_cons_eq delim _ _ hc,
        show ((done : Int) + 1) = ((done + 1 : Nat) : Int) by push_cast; rfl]
      refine ⟨_, _, _, rfl, Reads_afterByte Fn.fgetc fd w, ?_⟩
      intro hlen hdone
      obtain ⟨g1, g2, g3⟩ := grow_spec w.junk line size done hlen hdone
      have g5 : done < (growLine w.junk line size done).length := by omega
      have g6 : growSize size done
          ≤ ((((growLine w.junk line size done).set done
              (fuzzByte fz fd (w.pos fd) (b % 256))).length : Nat) : Int) := by
        rw [List.length_set]; exact g2
      have g7 : done + 1 ≤ ((growLine w.junk line size done).set done
              (fuzzByte fz fd (w.pos fd) (b % 256))).length := by
        rw [List.length_set]; omega
      obtain ⟨e1, e2, e3, e4⟩ := finish_spec w.junk _ _ (done + 1) g6 g7
      refine ⟨?_, e2, e3, e4⟩
      rw [show (afterByte Fn.fgetc fd w).junk = w.junk from rfl, e1,
        take_set_succ _ _ _ g5, g3]
      simp
    · rw [if_neg hc, hcor, lineLen_cons_ne delim _ _ hc]
      have hrem2 : remaining (afterByte Fn.fgetc fd w).file = rest := by
        show remaining (consume 1 w.file) = rest
        rw [remaining_consume, hrem]; rfl
      obtain ⟨L, N, w1, hL, hR, hB⟩ :=
        ih f ((growLine w.junk line size done).set done (fuzzByte fz fd (w.pos fd) (b % 256)))
          (growSize size done) (done + 1) ret (afterByte Fn.fgetc fd w) hrem2 hf
      rw [afterByte_pos] at hL hR hB
      refine ⟨L, N, w1, ?_, ?_, ?_⟩
      · rw [hL]
        congr 3
        push_cast; omega
      · have := Reads.trans (Reads_afterByte Fn.fgetc fd w) hR
        rw [Nat.add_comm] at this
        exact this
      · intro hlen hdone
        obtain ⟨g1, g2, g3⟩ := grow_spec w.junk line size done hlen hdone
        have g5 : done < (growLine w.junk line size done).length := by omega
        have g6 : growSize size done
            ≤ ((((growLine w.junk line size done).set done
                (fuzzByte fz fd (w.pos fd) (b % 256))).length : Nat) : Int) := by
          rw [List.length_set]; exact g2
        have g7 : done + 1 ≤ ((growLine w.junk line size done).set done
                (fuzzByte fz fd (w.pos fd) (b % 256))).length := by
          rw [List.length_set]; omega
        obtain ⟨e1, e2, e3, e4⟩ := hB g6 g7
        have hidx : done + (lineLen delim (corrupted fz fd (w.pos fd + 1) rest) + 1)
            = done + 1 + lineLen delim (corrupted fz fd (w.pos fd + 1) rest) := by omega
        rw [hidx]
        refine ⟨?_, e2, e3, e4⟩
        rw [e1, take_set_succ _ _ _ g5, g3]
        simp

theorem toLong_le (n : Nat) : toLong (n : Int) ≤ (n : Int) := by
  unfold toLong
  omega

theorem corrupted_length (fz : Engine) (fd : Int) (p : Int) (l : List Nat) :
    (corrupted fz fd p l).length = l.length := by
  induction l generalizing p with
  | nil => rfl
  | cons b bs ih => simp [corrupted, ih]

theorem lineLen_spec (delim : Int) (l : List Nat) (hl : l ≠ []) :
    1 ≤ lineLen delim l ∧ lineLen delim l ≤ l.length ∧
    (∀ i, i + 1 < lineLen delim l → ¬ ((l.getD i 0 : Nat) : Int) = delim) ∧
    (lineLen delim l = l.length ∨ ((l.getD (lineLen delim l - 1) 0 : Nat) : Int) = delim) := by
  induction l with
  | nil => exact absurd rfl hl
  | cons c cs ih =>
    by_cases hc : (c : Int) = delim
    · rw [lineLen_cons_eq delim c cs hc]
      refine ⟨le_refl _, by simp, ?_, Or.inr (by simpa using hc)⟩
      intro i hi
      omega
    · rw [lineLen_cons_ne delim c cs hc]
      cases cs with
      | nil =>
        rw [lineLen_nil]
        refine ⟨le_refl _, by simp, ?_, Or.inl (by simp)⟩
        intro i hi
        omega
      | cons d ds =>
        obtain ⟨h1, h2, h3, h4⟩ := ih (by simp)
        refine ⟨by omega, by simp at h2 ⊢; omega, ?_, ?_⟩
        · intro i hi
          cases i with
          | zero => simpa using hc
          | succ j =>
            have := h3 j (by omega)
            simpa using this
        · rcases h4 with h4 | h4
          · left; simp at h4 ⊢; omega
          · right
            obtain ⟨m, hm⟩ : ∃ m, lineLen delim (d :: ds) = m + 1 := ⟨_, (Nat.sub_add_cancel h1).symm⟩
            rw [hm] at h4 ⊢
            simpa using h4

theorem fgetsLoop_eof (fz : Engine) (fd : Int) (k i : Nat) (s : List Nat) (ret : Bool)
    (w : World) (h : remaining w.file = []) :
    fgetsLoop fz fd (k + 1) i s ret w
      = ((if i = 0 then false else ret, s.set i 0), afterEOF .fgetc fd w) := by
  simp [fgetsLoop, callOrig, _zz_lock, _zz_unlock, emit, fgetc_orig_nil _ h, afterEOF]

theorem fgetsLoop_byte (fz : Engine) (fd : Int) (k i : Nat) (s : List Nat) (ret : Bool)
    (w : World) (b : Nat) (rest : List Nat) (h : remaining w.file = b :: rest) :
    fgetsLoop fz fd (k + 1) i s ret w
      = if (fuzzBytes fz fd (w.pos fd) (s.set i (b % 256)) i 1).getD i 0 = 10 then
          ((ret, (fuzzBytes fz fd (w.pos fd) (s.set i (b % 256)) i 1).set (i + 1) 0),
            afterByte .fgetc fd w)
        else
          fgetsLoop fz fd k (i + 1) (fuzzBytes fz fd (w.pos fd) (s.set i (b % 256)) i 1) ret
            (afterByte .fgetc fd w) := by
  simp [fgetsLoop, callOrig, _zz_lock, _zz_unlock, emit, fgetc_orig_cons _ _ _ h, afterByte,
    _zz_fuzz, _zz_addpos, byte_toNat, byte_ne_eof]

theorem unitWindows_snoc (p : Int) (k : Nat) :
    (p, 1) :: unitWindows (p + 1) k = unitWindows p (k + 1) := rfl

theorem fgetsLoop_reads (fz : Engine) (fd : Int) (k : Nat) :
    ∀ (i : Nat) (s : List Nat) (ret : Bool) (w : World),
      ∃ j, j ≤ (remaining w.file).length ∧
        Reads fd w (fgetsLoop fz fd k i s ret w).2 j (unitWindows (w.pos fd) j) := by
  induction k with
  | zero =>
    intro i s ret w
    exact ⟨0, Nat.zero_le _, Reads.refl fd w⟩
  | succ k ih =>
    intro i s ret w
    cases hrem : remaining w.file with
    | nil =>
      rw [fgetsLoop_eof fz fd k i s ret w hrem]
      exact ⟨0, Nat.zero_le _, Reads_afterEOF _ _ _⟩
    | cons b rest =>
      rw [fgetsLoop_byte fz fd k i s ret w b rest hrem]
      have hrem2 : remaining (afterByte Fn.fgetc fd w).file = rest := by
        show remaining (consume 1 w.file) = rest
        rw [remaining_consume, hrem]; rfl
      split_ifs with hnl
      · exact ⟨1, by simp, Reads_afterByte _ _ _⟩
      · obtain ⟨j, hj, hR⟩ :=
          ih (i + 1) (fuzzBytes fz fd (w.pos fd) (s.set i (b % 256)) i 1) ret
            (afterByte Fn.fgetc fd w)
        rw [hrem2] at hj
        rw [afterByte_pos] at hR
        refine ⟨1 + j, by simp; omega, ?_⟩
        have := Reads.trans (Reads_afterByte Fn.fgetc fd w) hR
        rw [Nat.add_comm 1 j] at this ⊢
        exact this

theorem chain_unitWindows (p : Int) (k : Nat) : Chain p (unitWindows p k) (p + k) := by
  induction k generalizing p with
  | zero => simp [unitWindows, Chain]
  | succ k ih =>
    refine ⟨rfl, Int.one_pos, ?_⟩
    have := ih (p + 1)
    have e : p + 1 + (k : Int) = p + ((k + 1 : Nat) : Int) := by push_cast; omega
    rw [e] at this
    exact this

theorem chain_append {p q r : Int} {a b : List (Int × Int)} (h1 : Chain p a q)
    (h2 : Chain q b r) : Chain p (a ++ b) r := by
  induction a generalizing p with
  | nil =>
    have : p = q := h1
    subst this
    exact h2
  | cons sl a ih =>
    obtain ⟨e1, e2, e3⟩ := h1
    exact ⟨e1, e2, ih e3⟩

theorem chain_le {p q : Int} {ws : List (Int × Int)} (h : Chain p ws q) : p ≤ q := by
  induction ws generalizing p with
  | nil =>
    have : p = q := h
    omega
  | cons sl a ih =>
    obtain ⟨e1, e2, e3⟩ := h
    have := ih e3
    omega

theorem coverCount_cons (x : Int) (sl : Int × Int) (ws : List (Int × Int)) :
    coverCount x (sl :: ws)
      = (if sl.1 ≤ x ∧ x < sl.1 + sl.2 then 1 else 0) + coverCount x ws := by
  unfold coverCount
  rw [List.filter_cons]
  by_cases hin : sl.1 ≤ x ∧ x < sl.1 + sl.2
  · simp only [hin, and_self, decide_True, if_true, List.length_cons]
    omega
  · simp only [hin, decide_False, if_false, Bool.false_eq_true]
    omega

theorem chain_cover {p q : Int} {ws : List (Int × Int)} (h : Chain p ws q) (x : Int) :
    coverCount x ws = if p ≤ x ∧ x < q then 1 else 0 := by
  induction ws generalizing p with
  | nil =>
    have : p = q := h
    subst this
    have : ¬ (p ≤ x ∧ x < p) := by omega
    simp [coverCount, this]
  | cons sl a ih =>
    obtain ⟨e1, e2, e3⟩ := h
    have hle := chain_le e3
    rw [coverCount_cons, ih e3]
    split_ifs <;> omega

theorem toLong_zero : toLong 0 = 0 := by decide

theorem fread_reads (fz : Engine) (ptr : List Nat) (size nmemb : Nat) (w : World)
    (hr : w.ready = true) (hw : w.watched w.file.fd = true) (hs : w.file.seekable = true)
    (hp : w.pos w.file.fd = ftell w.file) (h0 : 0 ≤ ftell w.file) :
    ∃ j ws, j ≤ (remaining w.file).length ∧
      Reads w.file.fd w (fread cfgDiff fz ptr size nmemb w).2 j ws ∧
      Chain (w.pos w.file.fd) ws (w.pos w.file.fd + j) := by
  have hj : (((remaining w.file).take (size * nmemb)).map (· % 256)).length
      ≤ (remaining w.file).length := by
    simp only [List.length_map, List.length_take]
    omega
  have hft := ftell_consume _ w.file hs hj
  refine ⟨(((remaining w.file).take (size * nmemb)).map (· % 256)).length, ?_⟩
  simp only [fread, hr, hw, _zz_iswatched, fileno, callOrig, cfgDiff, _zz_lock, _zz_unlock, emit,
    fread_orig, Bool.not_true, Bool.or_self, Bool.false_eq_true, if_false]
  generalize (((remaining w.file).take (size * nmemb)).map (· % 256)) = bytes at hj hft ⊢
  have hnew : (if ftell (consume bytes.length w.file) ≤ 0
      then toLong ((bytes.length / size * size : Nat) : Int)
      else ftell (consume bytes.length w.file)) = ftell w.file + bytes.length := by
    rw [hft]
    by_cases h : ftell w.file + (bytes.length : Int) ≤ 0
    · have hz : bytes.length = 0 := by omega
      rw [if_pos h, hz]
      simp only [Nat.zero_div, Nat.zero_mul, Nat.cast_zero, toLong_zero]
      omega
    · rw [if_neg h]
  simp only [hnew]
  by_cases hz : bytes.length = 0
  · have hne : ¬ (ftell w.file + (bytes.length : Int) ≠ ftell w.file) := by
      rw [hz]; simp
    rw [if_neg hne, hz]
    refine ⟨[], Nat.zero_le _, ?_, ?_⟩
    · simp [Reads, consume_zero, windows_append, windows, hr]
    · simp [Chain]
  · have hne : ftell w.file + (bytes.length : Int) ≠ ftell w.file := by
      omega
    rw [if_pos hne]
    refine ⟨[(w.pos w.file.fd, (bytes.length : Int))], hj, ?_, ?_⟩
    · simp [Reads, _zz_setpos, _zz_fuzz, emit, windows_append, windows, hp, hr]
    · refine ⟨rfl, by show (0 : Int) < (bytes.length : Int); omega, rfl⟩

theorem FGETC_reads (fz : Engine) (fn : Fn) (w : World)
    (hr : w.ready = true) (hw : w.watched w.file.fd = true) :
    ∃ j, j ≤ (remaining w.file).length ∧
      Reads w.file.fd w (FGETC cfgDiff fz fn w).2 j (unitWindows (w.pos w.file.fd) j) := by
  cases hrem : remaining w.file with
  | nil =>
    rw [FGETC_eof fz fn w hr hw hrem]
    exact ⟨0, Nat.zero_le _, Reads_afterEOF _ _ _⟩
  | cons b rest =>
    rw [FGETC_byte fz fn w b rest hr hw hrem]
    exact ⟨1, by simp, Reads_afterByte _ _ _⟩

theorem fgets_reads (fz : Engine) (s : List Nat) (size : Int) (w : World)
    (hr : w.ready = true) (hw : w.watched w.file.fd = true) :
    ∃ j, j ≤ (remaining w.file).length ∧
      Reads w.file.fd w (fgets cfgDiff fz s size w).2 j (unitWindows (w.pos w.file.fd) j) := by
  simp only [fgets, hr, hw, _zz_iswatched, fileno, cfgDiff, Bool.not_true, Bool.or_self,
    Bool.false_eq_true, if_false]
  split_ifs
  · exact ⟨0, Nat.zero_le _, Reads.refl _ w⟩
  · exact ⟨0, Nat.zero_le _, Reads.refl _ w⟩
  · exact fgetsLoop_reads fz w.file.fd _ 0 s true w

theorem GETDELIM_reads (fz : Engine) (fn : Fn) (fuel : Nat) (lineptr : Option (List Nat))
    (n : Nat) (delim : Int) (w : World)
    (hr : w.ready = true) (hw : w.watched w.file.fd = true)
    (hfuel : (remaining w.file).length + 2 ≤ fuel) :
    ∃ w1 j, (GETDELIM cfgDiff fz fn fuel lineptr n delim w).map (fun r => r.2) = some w1 ∧
      j ≤ (remaining w.file).length ∧
      Reads w.file.fd w w1 j (unitWindows (w.pos w.file.fd) j) := by
  obtain ⟨L, N, w1, hL, hR, -⟩ :=
    getdelimLoop_run fz w.file.fd delim (remaining w.file) fuel (lineptr.getD [])
      (if lineptr.isSome then toLong (n : Int) else 0) 0 0 w rfl hfuel
  refine ⟨w1, _, ?_, ?_, hR⟩
  · simp only [GETDELIM, hr, hw, _zz_iswatched, fileno, Bool.not_true, Bool.or_self,
      Bool.false_eq_true, if_false]
    rw [hL]
    rfl
  · cases hrem : remaining w.file with
    | nil => simp [corrupted, lineLen_nil]
    | cons b rest =>
      have hne : corrupted fz w.file.fd (w.pos w.file.fd) (b :: rest) ≠ [] := by
        simp [corrupted]
      have := (lineLen_spec delim _ hne).2.1
      rw [corrupted_length] at this
      exact this

theorem runOp_reads (fz : Engine) (fuel : Nat) (op : ReadOp) (w : World)
    (hr : w.ready = true) (hw : w.watched w.file.fd = true) (hs : w.file.seekable = true)
    (hp : w.pos w.file.fd = ftell w.file) (h0 : 0 ≤ ftell w.file)
    (hfuel : (remaining w.file).length + 2 ≤ fuel) :
    ∃ w1 j ws, runOp cfgDiff fz fuel op w = some w1 ∧ j ≤ (remaining w.file).length ∧
      Reads w.file.fd w w1 j ws ∧ Chain (w.pos w.file.fd) ws (w.pos w.file.fd + j) := by
  cases op with
  | fgetc =>
    obtain ⟨j, h1, h2⟩ := FGETC_reads fz .fgetc w hr hw
    exact ⟨_, j, _, rfl, h1, h2, chain_unitWindows _ _⟩
  | getc =>
    obtain ⟨j, h1, h2⟩ := FGETC_reads fz .getc w hr hw
    exact ⟨_, j, _, rfl, h1, h2, chain_unitWindows _ _⟩
  | fgets s size =>
    obtain ⟨j, h1, h2⟩ := fgets_reads fz s size w hr hw
    exact ⟨_, j, _, rfl, h1, h2, chain_unitWindows _ _⟩
  | getline lineptr n =>
    obtain ⟨w1, j, h1, h2, h3⟩ := GETDELIM_reads fz .getline fuel lineptr n 10 w hr hw hfuel
    exact ⟨w1, j, _, h1, h2, h3, chain_unitWindows _ _⟩
  | getdelim lineptr n delim =>
    obtain ⟨w1, j, h1, h2, h3⟩ := GETDELIM_reads fz .getdelim fuel lineptr n delim w hr hw hfuel
    exact ⟨w1, j, _, h1, h2, h3, chain_unitWindows _ _⟩
  | fread ptr size nmemb =>
    obtain ⟨j, ws, h1, h2, h3⟩ := fread_reads fz ptr size nmemb w hr hw hs hp h0
    exact ⟨_, j, ws, rfl, h1, h2, h3⟩

theorem ungetDiff_round_trip (fz : Engine) (w : World) (v : Int)
    (hr : w.ready = true) (hw : w.watched w.file.fd = true)
    (hfz : ∀ b, fuzzByte fz w.file.fd (w.pos w.file.fd)
        (fuzzByte fz w.file.fd (w.pos w.file.fd) (fuzzByte fz w.file.fd (w.pos w.file.fd) b))
      = fuzzByte fz w.file.fd (w.pos w.file.fd) b)
    (h1 : (fgetc cfgDiff fz w).1 = v) (hv : v ≠ EOF)
    (h2 : (ungetc cfgDiff fz v (fgetc cfgDiff fz w).2).1 ≠ EOF) :
    (fgetc cfgDiff fz (ungetc cfgDiff fz v (fgetc cfgDiff fz w).2).2).1 = v ∧
    (fgetc cfgDiff fz (ungetc cfgDiff fz v (fgetc cfgDiff fz w).2).2).2.pos w.file.fd
      = (fgetc cfgDiff fz w).2.pos w.file.fd := by
  unfold fgetc at h1 h2 ⊢
  cases hrem : remaining w.file with
  | nil =>
    rw [FGETC_eof fz .fgetc w hr hw hrem] at h1
    exact absurd h1.symm hv
  | cons b rest =>
    rw [FGETC_byte fz .fgetc w b rest hr hw hrem] at h1 h2 ⊢
    simp only at h1 h2 ⊢
    subst h1
    have hlt := fuzzByte_lt fz w.file.fd (w.pos w.file.fd) (b % 256)
    have hr1 : (afterByte .fgetc w.file.fd w).ready = true := hr
    have hw1 : (afterByte .fgetc w.file.fd w).watched (afterByte .fgetc w.file.fd w).file.fd
        = true := hw
    obtain ⟨hr2, hw2, hfd2, hp2, hrem2⟩ :=
      ungetc_ok fz _ (afterByte .fgetc w.file.fd w) hlt hr1 hw1 h2
    have hfd1 : (afterByte .fgetc w.file.fd w).file.fd = w.file.fd := rfl
    have hp1 : (afterByte .fgetc w.file.fd w).pos w.file.fd = w.pos w.file.fd + 1 :=
      afterByte_pos _ _ _
    rw [hfd1] at hfd2 hp2 hrem2
    rw [hp1] at hp2 hrem2
    have hpp : w.pos w.file.fd + 1 + -1 = w.pos w.file.fd := by omega
    rw [hpp] at hp2 hrem2
    have hw3 : (ungetc cfgDiff fz
        ((fuzzByte fz w.file.fd (w.pos w.file.fd) (b % 256) : Nat) : Int)
        (afterByte .fgetc w.file.fd w)).2.watched
        (ungetc cfgDiff fz ((fuzzByte fz w.file.fd (w.pos w.file.fd) (b % 256) : Nat) : Int)
          (afterByte .fgetc w.file.fd w)).2.file.fd = true := by
      rw [hw2, hfd2]; exact hw
    rw [FGETC_byte fz .fgetc _ _ _ hr2 hw3 hrem2]
    rw [hfd2, hp2]
    have hm : fuzzByte fz w.file.fd (w.pos w.file.fd)
        (fuzzByte fz w.file.fd (w.pos w.file.fd) (b % 256)) % 256
        = fuzzByte fz w.file.fd (w.pos w.file.fd)
        (fuzzByte fz w.file.fd (w.pos w.file.fd) (b % 256)) :=
      Nat.mod_eq_of_lt (fuzzByte_lt _ _ _ _)
    rw [hm, hfz]
    refine ⟨rfl, ?_⟩
    rw [afterByte_pos, afterByte_pos, hp2]

theorem FGETC_refill (fz : Engine) (fn : Fn) (w : World)
    (hr : w.ready = true) (hw : w.watched w.file.fd = true) :
    FGETC cfgRefill fz fn w
      = ((fgetc_orig w.file).1,
          { w with file := (fgetc_orig w.file).2,
                   log := w.log ++ [.lock w.file.fd, .orig fn [w.file.fd], .unlock w.file.fd] }) := by
  simp [FGETC, hr, hw, _zz_iswatched, fileno, callOrig, cfgRefill, _zz_lock, _zz_unlock, emit]

theorem FGETC_refill_head (fz : Engine) (fn : Fn) (w : World) (c : Nat) (rest : List Nat)
    (hr : w.ready = true) (hw : w.watched w.file.fd = true)
    (hrem : remaining w.file = c :: rest) :
    (FGETC cfgRefill fz fn w).1 = ((c % 256 : Nat) : Int) ∧
    (FGETC cfgRefill fz fn w).2.pos = w.pos := by
  rw [FGETC_refill fz fn w hr hw, fgetc_orig_cons _ _ _ hrem]
  exact ⟨rfl, rfl⟩

theorem ungetc_refill_ok (fz : Engine) (c : Nat) (w : World) (hc : c < 256)
    (hr : w.ready = true) (hw : w.watched w.file.fd = true)
    (h : (ungetc cfgRefill fz (c : Int) w).1 ≠ EOF) :
    (ungetc cfgRefill fz (c : Int) w).2.ready = true ∧
    (ungetc cfgRefill fz (c : Int) w).2.watched = w.watched ∧
    (ungetc cfgRefill fz (c : Int) w).2.file.fd = w.file.fd ∧
    (ungetc cfgRefill fz (c : Int) w).2.pos = w.pos ∧
    remaining (ungetc cfgRefill fz (c : Int) w).2.file = c :: remaining w.file := by
  have hc2 : c % 256 = c := Nat.mod_eq_of_lt hc
  revert h
  simp only [ungetc, hr, hw, _zz_iswatched, fileno, callOrig, cfgRefill, _zz_lock, _zz_unlock,
    emit, byte_toNat, hc2, ungetc_orig_byte _ hc, Bool.not_true, Bool.or_self,
    Bool.false_eq_true, if_false, if_true, List.headD_cons]
  by_cases hcap : w.file.unget.length < w.file.ungetCap
  · simp [hcap, remaining]
  · simp [hcap]

theorem ungetRefill_round_trip (fz : Engine) (w : World) (v : Int)
    (hr : w.ready = true) (hw : w.watched w.file.fd = true)
    (h1 : (fgetc cfgRefill fz w).1 = v) (hv : v ≠ EOF)
    (h2 : (ungetc cfgRefill fz v (fgetc cfgRefill fz w).2).1 ≠ EOF) :
    (fgetc cfgRefill fz (ungetc cfgRefill fz v (fgetc cfgRefill fz w).2).2).1 = v ∧
    (fgetc cfgRefill fz (ungetc cfgRefill fz v (fgetc cfgRefill fz w).2).2).2.pos w.file.fd
      = (fgetc cfgRefill fz w).2.pos w.file.fd := by
  unfold fgetc at h1 h2 ⊢
  cases hrem : remaining w.file with
  | nil =>
    rw [FGETC_refill fz .fgetc w hr hw, fgetc_orig_nil _ hrem] at h1
    exact absurd h1.symm hv
  | cons b rest =>
    rw [FGETC_refill fz .fgetc w hr hw, fgetc_orig_cons _ _ _ hrem] at h1 h2 ⊢
    simp only at h1 h2 ⊢
    subst h1
    have hlt : b % 256 < 256 := Nat.mod_lt _ (by decide)
    obtain ⟨hr2, hw2, hfd2, hp2, hrem2⟩ :=
      ungetc_refill_ok fz (b % 256)
        { w with file := consume 1 w.file,
                 log := w.log ++ [.lock w.file.fd, .orig .fgetc [w.file.fd], .unlock w.file.fd] }
        hlt hr hw h2
    simp only [consume_fd] at hw2 hfd2 hp2 hrem2
    obtain ⟨k1, k2⟩ := FGETC_refill_head fz .fgetc _ (b % 256) _ hr2
      (by rw [hw2, hfd2]; exact hw) hrem2
    rw [k1, k2, hp2]
    simp only [Nat.mod_mod, and_self]

/-! ## The properties -/

/-- C1: in Differential-Reconciliation mode, every sequence of `fgetc`/`getc`,
`fgets`, `getline`/`getdelim` and `fread` calls on a seekable watched stream
whose logical offset equals the real cursor `p0 = ftell` runs to completion
(given fuel for the `getdelim` loop), consumes some `N` bytes of the stream,
leaves the logical offset at `p0 + N`, and hands the engine windows `ws` such
that every offset in `[p0, p0 + N)` lies in exactly one window and every other
offset in none: the windows are pairwise disjoint and their union is
`[p0, p0 + N)`. -/
theorem reads_corrupt_each_offset_once (fz : Engine) (fuel : Nat) (ops : List ReadOp)
    (w : World)
    (hr : w.ready = true) (hw : w.watched w.file.fd = true) (hs : w.file.seekable = true)
    (hp : w.pos w.file.fd = ftell w.file) (h0 : 0 ≤ ftell w.file)
    (hfuel : (remaining w.file).length + 2 ≤ fuel) :
    ∃ w1 N ws, runOps cfgDiff fz fuel ops w = some w1 ∧
      N ≤ (remaining w.file).length ∧
      remaining w1.file = (remaining w.file).drop N ∧
      w1.pos w.file.fd = ftell w.file + N ∧
      windows w.file.fd w1.log = windows w.file.fd w.log ++ ws ∧
      ∀ x, coverCount x ws = if ftell w.file ≤ x ∧ x < ftell w.file + N then 1 else 0 := by
  suffices H : ∃ w1 N ws, runOps cfgDiff fz fuel ops w = some w1 ∧
      N ≤ (remaining w.file).length ∧ Reads w.file.fd w w1 N ws ∧
      Chain (w.pos w.file.fd) ws (w.pos w.file.fd + N) by
    obtain ⟨w1, N, ws, e1, e2, ⟨r1, r2, r3, r4, r5⟩, e4⟩ := H
    refine ⟨w1, N, ws, e1, e2, ?_, ?_, r5, ?_⟩
    · rw [r3, remaining_consume]
    · rw [r4, hp]
    · intro x
      rw [hp] at e4
      exact chain_cover e4 x
  induction ops generalizing w with
  | nil => exact ⟨w, 0, [], rfl, Nat.zero_le _, Reads.refl _ w, by simp [Chain]⟩
  | cons op ops ih =>
    obtain ⟨w1, j, ws1, a1, a2, a3, a4⟩ := runOp_reads fz fuel op w hr hw hs hp h0 hfuel
    obtain ⟨r1, r2, r3, r4, r5⟩ := a3
    have hfd : w1.file.fd = w.file.fd := by rw [r3]; rfl
    have hft : ftell w1.file = ftell w.file + j := by
      rw [r3]; exact ftell_consume j w.file hs a2
    have hrem : (remaining w1.file).length = (remaining w.file).length - j := by
      rw [r3, remaining_consume, List.length_drop]
    obtain ⟨w2, k, ws2, b1, b2, b3, b4⟩ :=
      ih w1 (by rw [r1]; exact hr) (by rw [r2, hfd]; exact hw) (by rw [r3]; exact hs)
        (by rw [hfd, r4, hft, hp]) (by rw [hft]; omega) (by rw [hrem]; omega)
    rw [hfd, r4] at b4
    rw [hfd] at b3
    refine ⟨w2, j + k, ws1 ++ ws2, ?_, by omega, Reads.trans ⟨r1, r2, r3, r4, r5⟩ b3, ?_⟩
    · show (runOp cfgDiff fz fuel op w).bind (runOps cfgDiff fz fuel ops) = some w2
      rw [a1]
      exact b1
    · have e : w.pos w.file.fd + ((j + k : Nat) : Int) = w.pos w.file.fd + j + k := by
        push_cast; omega
      rw [e]
      exact chain_append a4 b4

/-- Witness for C1, on the scenario of the specification: two 50-byte `fread`
calls on a 100-byte file opened at offset 0 corrupt exactly `[0, 50)` and then
`[50, 100)`. -/
theorem reads_corrupt_each_offset_once_witness :
    (∃ w1 N ws,
      runOps cfgDiff notEngine 102 [.fread buf50 1 50, .fread buf50 1 50]
          (worldOf (fileOf hundred) 0) = some w1 ∧
      N ≤ 100 ∧
      remaining w1.file = hundred.drop N ∧
      w1.pos 3 = 0 + N ∧
      windows 3 w1.log = [] ++ ws ∧
      ∀ x, coverCount x ws = if 0 ≤ x ∧ x < 0 + (N : Int) then 1 else 0) ∧
    (runOps cfgDiff notEngine 102 [.fread buf50 1 50, .fread buf50 1 50]
        (worldOf (fileOf hundred) 0)).map (fun w1 => (windows 3 w1.log, remaining w1.file))
      = some ([(0, 50), (50, 50)], []) :=
  ⟨reads_corrupt_each_offset_once notEngine 102 [.fread buf50 1 50, .fread buf50 1 50]
      (worldOf (fileOf hundred) 0) (by decide) (by decide) (by decide) (by decide) (by decide)
      (by decide),
   by decide⟩

/-- C2: before the layer is armed, `freopen` is not a pass-through. With
`_zz_ready` false it still takes and releases the lock around the real call,
asks the watch policy and registers the new descriptor, which becomes
watched; `fopen`, which returns early, makes the real call only. -/
theorem freopen_unarmed_locks_and_registers :
    (freopen "in" "r" (unarmedWorldOf (fileOf abcdef) 0)).2.log
      = [.lock (-1), .origOpen .freopen "in" "r", .unlock (-1), .mustwatch "in",
          .register 3] ∧
    (freopen "in" "r" (unarmedWorldOf (fileOf abcdef) 0)).2.watched 3 = true ∧
    (unarmedWorldOf (fileOf abcdef) 0).watched 3 = false ∧
    (fopen "in" "r" (unarmedWorldOf (fileOf abcdef) 0)).2.log
      = [.origOpen .fopen "in" "r"] := by
  decide

/-- C3, as stated, fails: with the deterministic engine that adds one to every
byte, `fgetc` on a stream starting with `a` (97) returns 98, `ungetc(98)`
succeeds, and the next `fgetc` returns 100. -/
theorem increment_engine_breaks_unget :
    (fgetc cfgDiff incEngine (worldOf (fileOf abcdef) 0)).1 = 98 ∧
    (ungetc cfgDiff incEngine 98 (fgetc cfgDiff incEngine (worldOf (fileOf abcdef) 0)).2).1
      = 98 ∧
    (fgetc cfgDiff incEngine
      (ungetc cfgDiff incEngine 98 (fgetc cfgDiff incEngine (worldOf (fileOf abcdef) 0)).2).2).1
      = 100 := by
  decide

/-- C3, amended: for every watched stream, and every engine whose byte map at
the logical offset of the read gives the same result applied three times as
applied once (required only when `HAVE___SREFILL` is not defined; any
involution such as XOR with a mask qualifies): if `fgetc` returns a byte `v`
(not `EOF`) and `ungetc(v, stream)` then succeeds, the next `fgetc` returns
`v` again and leaves the logical offset equal to its value after the first
`fgetc`. -/
theorem unget_symmetry (cfg : Config) (fz : Engine) (w : World) (v : Int)
    (hr : w.ready = true) (hw : w.watched w.file.fd = true)
    (hfz : cfg.HAVE___SREFILL = false → ∀ b,
      fuzzByte fz w.file.fd (w.pos w.file.fd)
        (fuzzByte fz w.file.fd (w.pos w.file.fd) (fuzzByte fz w.file.fd (w.pos w.file.fd) b))
      = fuzzByte fz w.file.fd (w.pos w.file.fd) b)
    (h1 : (fgetc cfg fz w).1 = v) (hv : v ≠ EOF)
    (h2 : (ungetc cfg fz v (fgetc cfg fz w).2).1 ≠ EOF) :
    (fgetc cfg fz (ungetc cfg fz v (fgetc cfg fz w).2).2).1 = v ∧
    (fgetc cfg fz (ungetc cfg fz v (fgetc cfg fz w).2).2).2.pos w.file.fd
      = (fgetc cfg fz w).2.pos w.file.fd := by
  obtain ⟨b⟩ := cfg
  cases b with
  | false => exact ungetDiff_round_trip fz w v hr hw (hfz rfl) h1 hv h2
  | true => exact ungetRefill_round_trip fz w v hr hw h1 hv h2

/-- Witness for the amended C3, with the engine that complements every byte:
`a` (97) is read as 158, pushed back, and read as 158 again, at logical
offset 1. -/
theorem unget_symmetry_witness :
    (fgetc cfgDiff notEngine (worldOf (fileOf abcdef) 0)).1 = 158 ∧
    (fgetc cfgDiff notEngine
      (ungetc cfgDiff notEngine 158 (fgetc cfgDiff notEngine (worldOf (fileOf abcdef) 0)).2).2).1
      = 158 ∧
    (fgetc cfgDiff notEngine
      (ungetc cfgDiff notEngine 158
        (fgetc cfgDiff notEngine (worldOf (fileOf abcdef) 0)).2).2).2.pos 3 = 1 :=
  ⟨by decide,
   (unget_symmetry cfgDiff notEngine (worldOf (fileOf abcdef) 0) 158 (by decide) (by decide)
      (by intro _ b; simp only [fuzzByte, notEngine]; omega)
      (by decide) (by decide) (by decide)).1,
   ((unget_symmetry cfgDiff notEngine (worldOf (fileOf abcdef) 0) 158 (by decide) (by decide)
      (by intro _ b; simp only [fuzzByte, notEngine]; omega)
      (by decide) (by decide) (by decide)).2).trans (by decide)⟩

/-- C4: on a watched stream at end of stream (the third call of the scenario
on `abc\ndef`, cursor and logical offset at 7), `getline` returns 0, not -1;
it hands nothing to the engine and leaves the logical offset at 7. The real
`getdelim` returns -1 in the same state. Run as the scenario, three `getline`
calls in a row return 4, 3 and 0. -/
theorem getline_at_eof_returns_zero :
    (getline cfgDiff idEngine 5 none 0 (worldOf { fileOf abcdef with cur := 7 } 7)).map
        (fun r => (r.1.1, windows 3 r.2.log, r.2.pos 3))
      = some (0, [], 7) ∧
    (getdelim_orig 7 none 0 10 { fileOf abcdef with cur := 7 }).1.1 = -1 ∧
    ((getline cfgDiff idEngine 9 none 0 (worldOf (fileOf abcdef) 0)).bind (fun r1 =>
      (getline cfgDiff idEngine 9 r1.1.2.1 r1.1.2.2 r1.2).bind (fun r2 =>
        (getline cfgDiff idEngine 9 r2.1.2.1 r2.1.2.2 r2.2).map (fun r3 =>
          (r1.1.1, r2.1.1, r3.1.1, r2.2.pos 3, r3.2.pos 3)))))
      = some (4, 3, 0, 7, 7) := by
  decide

/-- C5, as stated, fails in a Refill-Hook build: the first `getline` on
`abc\ndef` (identity engine, empty read buffer, logical offset 0) returns
`k = 4`, yet the engine was called five times, first by the diverted
`__srefill` on the 7 bytes of the refill and then by `GETDELIM` on each byte
read, and the logical offset advanced by 11. -/
theorem getline_refill_build_counts_twice :
    (getline_refill idEngine 9 none 0 (bsdWorldOf (fileOf abcdef) 0 16)).map
        (fun r => (r.1.1, windows 3 r.2.world.log, r.2.world.pos 3))
      = some (4, [(0, 7), (7, 1), (8, 1), (9, 1), (10, 1)], 11) := by
  decide

/-- C5, amended: in Differential-Reconciliation mode (`HAVE___SREFILL` not
defined), on a watched stream with at least one byte remaining, for every
delimiter and every initial `*lineptr`, `*n` (with `*n` not above the size of
the buffer), `getline` / `getdelim` / `__getdelim` returns `k = readLen ...`
with `1 <= k`, where the `k` bytes consumed are the shortest prefix of the
remaining bytes whose last corrupted byte equals the delimiter, or all of
them if there is none; `*lineptr` holds those `k` corrupted bytes and a NUL
at index `k`, `k < *n`, the engine was called exactly `k` times on one byte
each at consecutive offsets, and the logical offset advanced by `k`. -/
theorem getdelim_reads_line (fz : Engine) (fn : Fn) (fuel : Nat) (lineptr : Option (List Nat))
    (n : Nat) (delim : Int) (w : World)
    (hr : w.ready = true) (hw : w.watched w.file.fd = true)
    (hne : remaining w.file ≠ [])
    (hbuf : ∀ b, lineptr = some b → n ≤ b.length)
    (hfuel : (remaining w.file).length + 2 ≤ fuel) :
    ∃ L N w1,
      GETDELIM cfgDiff fz fn fuel lineptr n delim w
        = some ((((readLen fz w.file.fd (w.pos w.file.fd) delim (remaining w.file) : Nat) : Int),
            some L, N), w1) ∧
      1 ≤ readLen fz w.file.fd (w.pos w.file.fd) delim (remaining w.file) ∧
      readLen fz w.file.fd (w.pos w.file.fd) delim (remaining w.file)
        ≤ (remaining w.file).length ∧
      (∀ i, i + 1 < readLen fz w.file.fd (w.pos w.file.fd) delim (remaining w.file) →
        ¬ (((corrupted fz w.file.fd (w.pos w.file.fd) (remaining w.file)).getD i 0 : Nat) : Int)
            = delim) ∧
      (readLen fz w.file.fd (w.pos w.file.fd) delim (remaining w.file)
          = (remaining w.file).length ∨
        (((corrupted fz w.file.fd (w.pos w.file.fd) (remaining w.file)).getD
          (readLen fz w.file.fd (w.pos w.file.fd) delim (remaining w.file) - 1) 0 : Nat) : Int)
            = delim) ∧
      remaining w1.file
        = (remaining w.file).drop
            (readLen fz w.file.fd (w.pos w.file.fd) delim (remaining w.file)) ∧
      L.take (readLen fz w.file.fd (w.pos w.file.fd) delim (remaining w.file))
        = (corrupted fz w.file.fd (w.pos w.file.fd) (remaining w.file)).take
            (readLen fz w.file.fd (w.pos w.file.fd) delim (remaining w.file)) ∧
      L[readLen fz w.file.fd (w.pos w.file.fd) delim (remaining w.file)]? = some 0 ∧
      readLen fz w.file.fd (w.pos w.file.fd) delim (remaining w.file) < N ∧
      windows w.file.fd w1.log
        = windows w.file.fd w.log
          ++ unitWindows (w.pos w.file.fd)
              (readLen fz w.file.fd (w.pos w.file.fd) delim (remaining w.file)) ∧
      w1.pos w.file.fd
        = w.pos w.file.fd
          + (readLen fz w.file.fd (w.pos w.file.fd) delim (remaining w.file) : Nat) := by
  have hcne : corrupted fz w.file.fd (w.pos w.file.fd) (remaining w.file) ≠ [] := by
    intro h
    have := congrArg List.length h
    rw [corrupted_length] at this
    exact hne (List.length_eq_zero.mp this)
  obtain ⟨s1, s2, s3, s4⟩ := lineLen_spec delim _ hcne
  rw [corrupted_length] at s2 s4
  obtain ⟨L, N, w1, hL, hR, hB⟩ :=
    getdelimLoop_run fz w.file.fd delim (remaining w.file) fuel (lineptr.getD [])
      (if lineptr.isSome then toLong (n : Int) else 0) 0 0 w rfl hfuel
  have hsize : (if lineptr.isSome then toLong (n : Int) else 0)
      ≤ (((lineptr.getD []).length : Nat) : Int) := by
    cases lineptr with
    | none => simp
    | some b =>
      have := hbuf b rfl
      have := toLong_le n
      simp only [Option.isSome_some, if_true, Option.getD_some]
      omega
  obtain ⟨e1, e2, e3, e4⟩ := hB hsize (Nat.zero_le _)
  simp only [Nat.zero_add, List.take_zero, List.nil_append] at hL e1 e2 e3
  obtain ⟨r1, r2, r3, r4, r5⟩ := hR
  refine ⟨L, N, w1, ?_, s1, s2, s3, s4, ?_, e1, e2, e3, r5, r4⟩
  · simp only [GETDELIM, hr, hw, _zz_iswatched, fileno, Bool.not_true, Bool.or_self,
      Bool.false_eq_true, if_false]
    unfold readLen
    rw [hL]
    rfl
  · rw [r3, remaining_consume]
    rfl

/-- Witness for the amended C5, on the scenario of the specification with the identity
engine: the first `getline` on `abc\ndef` returns 4 and the line `abc\n`;
a second call with the buffer of the first returns 3 and leaves the logical
offset at 7. -/
theorem getdelim_reads_line_witness :
    (∃ L N w1,
      getline cfgDiff idEngine 9 none 0 (worldOf (fileOf abcdef) 0)
        = some ((4, some L, N), w1) ∧
      L.take 4 = [97, 98, 99, 10] ∧ L[4]? = some 0 ∧ 4 < N ∧
      remaining w1.file = [100, 101, 102] ∧
      windows 3 w1.log = [(0, 1), (1, 1), (2, 1), (3, 1)] ∧ w1.pos 3 = 4) ∧
    ((getline cfgDiff idEngine 9 none 0 (worldOf (fileOf abcdef) 0)).bind (fun r1 =>
      (getline cfgDiff idEngine 9 r1.1.2.1 r1.1.2.2 r1.2).map (fun r2 =>
        (r1.1.1, r2.1.1, r2.2.pos 3))))
      = some (4, 3, 7) := by
  refine ⟨?_, by decide⟩
  obtain ⟨L, N, w1, h1, -, -, -, -, h6, h7, h8, h9, h10, h11⟩ :=
    getdelim_reads_line idEngine .getline 9 none 0 10 (worldOf (fileOf abcdef) 0)
      (by decide) (by decide) (by decide) (by intro b hb; cases hb) (by decide)
  have hk : readLen idEngine (worldOf (fileOf abcdef) 0).file.fd
      ((worldOf (fileOf abcdef) 0).pos (worldOf (fileOf abcdef) 0).file.fd) 10
      (remaining (worldOf (fileOf abcdef) 0).file) = 4 := by decide
  rw [hk] at h1 h6 h7 h8 h9 h10 h11
  exact ⟨L, N, w1, h1, h7, h8, h9, h6, h10, h11⟩

/-- C6: `fgets(s, 3, stream)` on a watched stream holding `abc...`, with the
buffer `s` holding three bytes 1, returns non-`NULL` and leaves `s` as
`a`, `b`, 1: two characters were read and no NUL was written in the first
three bytes. -/
theorem fgets_full_buffer_unterminated :
    (fgets cfgDiff idEngine [1, 1, 1] 3 (worldOf (fileOf abcdef) 0)).1
      = (true, [97, 98, 1]) := by
  decide

/-- C7: in a Refill-Hook build, `getline` on a watched stream still calls the
engine and the offset mutator for every byte, whereas `fgets` in the same
build only locks, calls the real `fgets` and unlocks. -/
theorem getline_refill_mode_corrupts :
    (getline cfgRefill idEngine 9 none 0 (worldOf (fileOf [97, 10, 98]) 0)).map
        (fun r => r.2.log)
      = some [.lock 3, .orig .fgetc [3], .unlock 3, .fuzz 3 0 1, .addpos 3 1,
              .lock 3, .orig .fgetc [3], .unlock 3, .fuzz 3 1 1, .addpos 3 1] ∧
    (fgets cfgRefill idEngine [1, 1, 1] 3 (worldOf (fileOf [97, 10, 98]) 0)).2.log
      = [.lock 3, .orig .fgets [3, 3], .unlock 3] := by
  decide

/-- C8: in Differential-Reconciliation mode, for a watched stream whose
logical offset equals the real cursor: a successful `fseek` / `fseeko` leaves
the logical offset at `offset` for `SEEK_SET`, at cursor plus `offset` for
`SEEK_CUR`, at file length plus `offset` for `SEEK_END`, and in every case
equal to the new real cursor; a failed one leaves it unchanged; `rewind` on a
seekable stream leaves it at 0, the new real cursor. -/
theorem fseek_logical_offset (fn : Fn) (offset whence : Int) (w : World)
    (hr : w.ready = true) (hw : w.watched w.file.fd = true)
    (hp : w.pos w.file.fd = ftell w.file) :
    ((FSEEK cfgDiff fn offset whence w).1 = 0 →
      (whence = SEEK_SET → (FSEEK cfgDiff fn offset whence w).2.pos w.file.fd = offset) ∧
      (whence = SEEK_CUR →
        (FSEEK cfgDiff fn offset whence w).2.pos w.file.fd = ftell w.file + offset) ∧
      (whence = SEEK_END →
        (FSEEK cfgDiff fn offset whence w).2.pos w.file.fd
          = (w.file.data.length : Int) + offset) ∧
      (FSEEK cfgDiff fn offset whence w).2.pos w.file.fd
        = ftell (FSEEK cfgDiff fn offset whence w).2.file) ∧
    ((FSEEK cfgDiff fn offset whence w).1 ≠ 0 →
      (FSEEK cfgDiff fn offset whence w).2.pos w.file.fd = w.pos w.file.fd) ∧
    (w.file.seekable = true →
      (rewind cfgDiff w).pos w.file.fd = 0 ∧
      (rewind cfgDiff w).pos w.file.fd = ftell (rewind cfgDiff w).file) := by
  rw [FSEEK_ret fn offset whence w hr hw, FSEEK_pos fn offset whence w hr hw,
    FSEEK_file fn offset whence w hr hw]
  refine ⟨?_, ?_, ?_⟩
  · intro h1
    obtain ⟨hs, h0, ht, hfd⟩ := fseek_orig_ok offset whence w.file h1
    rw [if_pos h1]
    by_cases hS : whence = SEEK_SET
    · subst hS
      have ht2 : offset = ftell (fseek_orig offset SEEK_SET w.file).2 := by
        simpa [seekTarget] using ht
      simp [← ht2]
    · by_cases hC : whence = SEEK_CUR
      · subst hC
        have ht2 : ftell w.file + offset = ftell (fseek_orig offset SEEK_CUR w.file).2 := by
          simpa [seekTarget] using ht
        simp [← ht2, hp]
      · by_cases hE : whence = SEEK_END
        · subst hE
          have ht2 : (w.file.data.length : Int) + offset
              = ftell (fseek_orig offset SEEK_END w.file).2 := by
            simpa [seekTarget] using ht
          simp [← ht2]
        · simp [seekTarget, hS, hC, hE] at ht
  · intro h1
    rw [if_neg h1]
  · intro hs
    simp [rewind, hr, hw, _zz_iswatched, fileno, callOrig, cfgDiff, _zz_lock, _zz_unlock, emit,
      _zz_setpos, rewind_orig, fseek_orig, seekTarget, hs, validPos, ftell]

/-- Witness for C8, on the scenario of the specification:
`fseek(stream, -10, SEEK_END)` on a 100-byte file succeeds and sets the
logical offset to 90. -/
theorem fseek_logical_offset_witness :
    (fseek cfgDiff (-10) SEEK_END (worldOf (fileOf hundred) 0)).1 = 0 ∧
    (fseek cfgDiff (-10) SEEK_END (worldOf (fileOf hundred) 0)).2.pos 3 = 90 :=
  ⟨by decide,
   (((fseek_logical_offset .fseek (-10) SEEK_END (worldOf (fileOf hundred) 0) (by decide)
      (by decide) (by decide)).1 (by decide)).2.2.1 rfl).trans (by decide)⟩

/-- C9: `fread(ptr, 1, 4, stream)` on a watched pipe whose position query
reports -1 before and after the read: the real `fread` returns 4 elements (4
bytes stored), and the engine is handed a window of length 5. -/
theorem fread_pipe_window_too_long :
    (fread cfgDiff idEngine [0, 0, 0, 0, 0] 1 4 (worldOf (pipeOf abcdef) 0)).1.1 = 4 ∧
    (fread cfgDiff idEngine [0, 0, 0, 0, 0] 1 4 (worldOf (pipeOf abcdef) 0)).2.log
      = [.lock 3, .orig .fread [3, 1, 4], .unlock 3, .fuzz 3 0 5, .setpos 3 4] := by
  decide

/-- C10: `ungetc(EOF, stream)` on a watched stream at logical offset 2 returns
`EOF`, yet the logical offset is 1 afterwards and the byte 255 has been pushed
back onto the real stream. -/
theorem ungetc_eof_moves_offset :
    (ungetc cfgDiff idEngine EOF (worldOf { fileOf abcdef with cur := 2 } 2)).1 = EOF ∧
    (ungetc cfgDiff idEngine EOF (worldOf { fileOf abcdef with cur := 2 } 2)).2.pos 3 = 1 ∧
    (ungetc cfgDiff idEngine EOF (worldOf { fileOf abcdef with cur := 2 } 2)).2.file.unget
      = [255] ∧
    (ungetc cfgDiff idEngine EOF (worldOf { fileOf abcdef with cur := 2 } 2)).2.log
      = [.addpos 3 (-1), .fuzz 3 1 1, .lock 3, .orig .ungetc [255, 3], .unlock 3] := by
  decide

end Zzuf
